import Mathlib

/-!
Verification of the review-timeline reconciliation and metrics-aggregation
engine of the community-PR dashboard.

The definitions below are a shallow embedding of the TypeScript sources
`src/lib/github.ts` and `src/lib/compute.ts`:
* timestamps are modelled as natural numbers (milliseconds, as returned by
  `Date.getTime()`); `new Date(a) < new Date(b)` becomes `a < b`;
* JavaScript objects used as string-keyed maps are modelled as association
  lists in insertion order (`Object.entries` enumerates non-numeric string
  keys in insertion order);
* JavaScript `Set<string>` is modelled as a duplicate-free list built by
  `setAdd`;
* fractional quantities (hours, the `daysBack` argument, rates) are
  modelled as rationals;
* the paginated GraphQL fetch is modelled by a list of pages handed to the
  page loop, together with the page-count bound of the source;
* a thrown error is modelled by `Except.error`.
-/

/-- Association-list lookup, modelling JavaScript object property access
(`m[k]`); keys are unique by construction in all maps built below. -/
def getVal {α : Type} : List (String × α) → String → Option α
  | [], _ => none
  | (k, v) :: rest, a => if k = a then some v else getVal rest a

/-- The keys of an association list, modelling `Object.keys`. -/
def keysOf {α : Type} (m : List (String × α)) : List String :=
  m.map (·.1)

/-- `Set.add` on a set modelled as a duplicate-free list. -/
def setAdd (s : List String) (x : String) : List String :=
  if x ∈ s then s else s ++ [x]

/-- One element of `timelineItems.nodes` as consumed by the two merged-PR
queries of `src/lib/github.ts`: a `ReviewRequestedEvent` (the requested
reviewer's login is absent when the reviewer is a team or was deleted), a
`PullRequestReview` (author login, author association and submission time
may each be absent in the raw payload) or a `ReadyForReviewEvent`. -/
inductive TimelineItem : Type
  | reviewRequested (login : Option String) (createdAt : Nat)
  | pullRequestReview (login : Option String) (authorAssociation : Option String)
      (submittedAt : Option Nat) (state : String)
  | readyForReview (createdAt : Nat)
deriving DecidableEq

/-- `['APPROVED', 'CHANGES_REQUESTED', 'COMMENTED'].includes(state)`
(github.ts line 350). -/
def substantiveState (state : String) : Bool :=
  state = "APPROVED" ∨ state = "CHANGES_REQUESTED" ∨ state = "COMMENTED"

/-- An entry of the local `reviews` array of
`getRecentlyMergedPRsWithReviews` (github.ts line 340). -/
structure ReviewEntry : Type where
  login : String
  authorAssociation : String
  submittedAt : Nat
deriving DecidableEq

/-- `CompletedReviewData` (github.ts lines 248-255). -/
structure CompletedReviewData : Type where
  reviewerLogin : String
  authorAssociation : String
  submittedAt : Nat
  requestedAt : Option Nat
  prNumber : Nat
  prUrl : String
deriving DecidableEq

/-- `ReviewRequestData` (github.ts lines 257-261). -/
structure ReviewRequestData : Type where
  reviewerLogin : String
  requestedAt : Nat
  prNumber : Nat
deriving DecidableEq

/-- `ReviewStatsData` (github.ts lines 263-266). -/
structure ReviewStatsData : Type where
  completedReviews : List CompletedReviewData
  reviewRequests : List ReviewRequestData
deriving DecidableEq

/-- One node of the `RecentMergedPRs` query result (github.ts
lines 281-303). -/
structure PRNode : Type where
  number : Nat
  url : String
  mergedAt : Option Nat
  timelineItems : List TimelineItem
deriving DecidableEq

/-- One fetched page of merged pull requests together with its
`pageInfo.hasNextPage` flag. -/
structure Page : Type where
  nodes : List PRNode
  hasNextPage : Bool
deriving DecidableEq

/-- The first loop of the per-PR body of `getRecentlyMergedPRsWithReviews`
(github.ts lines 342-358): build the first-write-wins request map
`prReviewRequests` and the `reviews` array filtered to substantive review
states, preserving delivery order. -/
def reduceAux (m : List (String × Nat)) :
    List TimelineItem → List (String × Nat) × List ReviewEntry
  | [] => (m, [])
  | item :: rest =>
    match item with
    | .reviewRequested (some login) createdAt =>
        reduceAux (if (getVal m login).isNone then m ++ [(login, createdAt)] else m) rest
    | .pullRequestReview (some login) assoc (some submittedAt) state =>
        if substantiveState state then
          let r := reduceAux m rest
          (r.1, ⟨login, assoc.getD "NONE", submittedAt⟩ :: r.2)
        else reduceAux m rest
    | _ => reduceAux m rest

/-- `(prReviewRequests, reviews)` for one pull request's timeline. -/
def reduceTimeline (items : List TimelineItem) : List (String × Nat) × List ReviewEntry :=
  reduceAux [] items

/-- github.ts lines 360-369: one `ReviewRequestData` per entry of the
request map whose time is inside the lookback window. -/
def requestRecords (since : Nat) (prNumber : Nat) (m : List (String × Nat)) :
    List ReviewRequestData :=
  (m.filter (fun p => since ≤ p.2)).map (fun p => ⟨p.1, p.2, prNumber⟩)

/-- The `requestedAtInRange` expression of github.ts line 383. -/
def requestedAtInRange (since : Nat) (m : List (String × Nat)) (login : String) :
    Option Nat :=
  match getVal m login with
  | some t => if since ≤ t then some t else none
  | none => none

/-- The matching loop of github.ts lines 373-400: walk the reviews in
submission order, keeping the `fulfilledRequests` set, and emit one
`CompletedReviewData` per in-window review, with `requestedAt` set only on
the first review that fulfills the reviewer's request. -/
def matchReviews (since : Nat) (prNumber : Nat) (prUrl : String)
    (m : List (String × Nat)) :
    List ReviewEntry → List String → List CompletedReviewData
  | [], _ => []
  | r :: rs, fulfilled =>
    if since ≤ r.submittedAt then
      let inRange := requestedAtInRange since m r.login
      let reviewAfterRequest : Bool :=
        match inRange with
        | some t => t ≤ r.submittedAt
        | none => false
      let isFirst : Bool := reviewAfterRequest && !(r.login ∈ fulfilled)
      ⟨r.login, r.authorAssociation, r.submittedAt,
        if isFirst then inRange else none, prNumber, prUrl⟩ ::
        matchReviews since prNumber prUrl m rs
          (if isFirst then r.login :: fulfilled else fulfilled)
    else matchReviews since prNumber prUrl m rs fulfilled

/-- The whole per-PR body of `getRecentlyMergedPRsWithReviews`
(github.ts lines 338-400). -/
def processPR (since : Nat) (pr : PRNode) :
    List CompletedReviewData × List ReviewRequestData :=
  (matchReviews since pr.number pr.url (reduceTimeline pr.timelineItems).1
      (reduceTimeline pr.timelineItems).2 [],
    requestRecords since pr.number (reduceTimeline pr.timelineItems).1)

/-- The `for (const pr of prData.nodes)` loop (github.ts lines 331-401);
the boolean records whether the loop hit the out-of-window early
termination (`hasNextPage = false; break`). -/
def processNodes (since : Nat) :
    List PRNode → (List CompletedReviewData × List ReviewRequestData) × Bool
  | [] => (([], []), false)
  | pr :: rest =>
    match pr.mergedAt with
    | some m =>
      if m < since then (([], []), true)
      else
        let here := processPR since pr
        let further := processNodes since rest
        ((here.1 ++ further.1.1, here.2 ++ further.1.2), further.2)
    | none =>
        let here := processPR since pr
        let further := processNodes since rest
        ((here.1 ++ further.1.1, here.2 ++ further.1.2), further.2)

/-- The `while (hasNextPage && pageCount < maxPages)` pagination loop of
`getRecentlyMergedPRsWithReviews` (github.ts lines 317-406), with the
remaining page budget as fuel; running past the pages the server can
deliver yields nothing further. -/
def fetchLoop (since : Nat) :
    List Page → Nat → List CompletedReviewData × List ReviewRequestData
  | _, 0 => ([], [])
  | [], _ + 1 => ([], [])
  | p :: rest, fuel + 1 =>
    let here := processNodes since p.nodes
    if p.hasNextPage && !here.2 then
      let further := fetchLoop since rest fuel
      (here.1.1 ++ further.1, here.1.2 ++ further.2)
    else here.1

/-- `const maxPages = 5` (github.ts line 315). -/
def maxPages : Nat := 5

/-- `getRecentlyMergedPRsWithReviews` (github.ts lines 268-409): the
`daysBack` parameter is validated (`daysBack <= 0` throws), `since` is the
window start derived from `daysBack`, and `pages` is the stream of pages
the GraphQL endpoint would deliver. -/
def getRecentlyMergedPRsWithReviews (daysBack : ℚ) (since : Nat)
    (pages : List Page) : Except String ReviewStatsData :=
  if daysBack ≤ 0 then .error "daysBack must be a positive number"
  else
    .ok ⟨(fetchLoop since pages maxPages).1, (fetchLoop since pages maxPages).2⟩

/-! ### `getOpenPRsGraphQL` (github.ts lines 130-192) -/

/-- One node of the `OpenPRs` query result, restricted to the scalar
fields the dashboard reads; only `state` is inspected by
`getOpenPRsGraphQL` itself. -/
structure OpenPRNode : Type where
  number : Nat
  title : String
  url : String
  state : String
  isDraft : Bool
  authorLogin : Option String
deriving DecidableEq

/-- One fetched page of open pull requests. -/
structure OpenPage : Type where
  nodes : List OpenPRNode
  hasNextPage : Bool
deriving DecidableEq

/-- The pagination loop of `getOpenPRsGraphQL` (github.ts lines 169-189),
including the per-page `state === 'OPEN'` filter of line 183. -/
def openLoop : List OpenPage → Nat → List OpenPRNode
  | _, 0 => []
  | [], _ + 1 => []
  | p :: rest, fuel + 1 =>
    let openPrs := p.nodes.filter (fun pr => pr.state = "OPEN")
    if p.hasNextPage then openPrs ++ openLoop rest fuel else openPrs

/-- `getOpenPRsGraphQL` (github.ts lines 130-192), abstracted over the
page stream and over `config.limits.maxPrPagesPerRepo`. -/
def getOpenPRsGraphQL (pages : List OpenPage) (maxPrPagesPerRepo : Nat) :
    List OpenPRNode :=
  openLoop pages maxPrPagesPerRepo

/-! ### `getCommunityPRReviewStats` (github.ts lines 411-587) -/

/-- `CommunityPRReviewData` (github.ts lines 411-420). -/
structure CommunityPRReviewData : Type where
  reviewerLogin : String
  prNumber : Nat
  prUrl : String
  prAuthor : String
  prAuthorAssociation : String
  readyForReviewAt : Nat
  firstReviewAt : Nat
  reviewTimeHours : ℚ
deriving DecidableEq

/-- One node of the `CommunityPRReviews` query result (github.ts
lines 446-467). -/
structure CommunityPRNode : Type where
  number : Nat
  url : String
  createdAt : Nat
  mergedAt : Option Nat
  isDraft : Bool
  authorLogin : Option String
  authorAssociation : Option String
  timelineItems : List TimelineItem
deriving DecidableEq

/-- `authorLogin.includes('[bot]')`: JavaScript substring containment,
via `String.splitOn` (the pattern occurs iff splitting on it yields more
than one piece). -/
def includesSub (s pat : String) : Bool :=
  (s.splitOn pat).length ≠ 1

/-- The bot test of github.ts line 513. -/
def isBotLogin (login : String) : Bool :=
  includesSub login "[bot]" || login.endsWith "-bot" || login = "dependabot"

/-- github.ts lines 520-527: the first `ReadyForReviewEvent` timestamp,
if any. -/
def firstReadyAt : List TimelineItem → Option Nat
  | [] => none
  | .readyForReview t :: _ => some t
  | _ :: rest => firstReadyAt rest

/-- github.ts lines 536-549: first substantive review per reviewer, in a
first-write-wins insertion-ordered map. -/
def firstReviewMap (m : List (String × Nat)) :
    List TimelineItem → List (String × Nat)
  | [] => m
  | .pullRequestReview (some login) _ (some submittedAt) state :: rest =>
      if substantiveState state then
        firstReviewMap
          (if (getVal m login).isNone then m ++ [(login, submittedAt)] else m) rest
      else firstReviewMap m rest
  | _ :: rest => firstReviewMap m rest

/-- The per-PR body of `getCommunityPRReviewStats` (github.ts
lines 501-578), for a pull request that passed the merge-window check. -/
def processCommunityPR (since : Nat) (employeesSet : List String)
    (pr : CommunityPRNode) : List CommunityPRReviewData :=
  match pr.authorLogin with
  | none => []
  | some authorLogin =>
    let authorAssociation := pr.authorAssociation.getD "NONE"
    let isEmployee := authorLogin ∈ employeesSet
    let hasWriteAccess :=
      authorAssociation ∈ ["COLLABORATOR", "MEMBER", "OWNER"]
    if isEmployee ∨ hasWriteAccess ∨ isBotLogin authorLogin then [] else
      let readyForReviewAt := (firstReadyAt pr.timelineItems).getD pr.createdAt
      (firstReviewMap [] pr.timelineItems).filterMap (fun p =>
        let reviewTimeHours : ℚ := ((p.2 : ℚ) - (readyForReviewAt : ℚ)) / 3600000
        if reviewTimeHours ≤ 0 then none
        else if since ≤ p.2 then
          some ⟨p.1, pr.number, pr.url, authorLogin, authorAssociation,
            readyForReviewAt, p.2, reviewTimeHours⟩
        else none)

/-- One fetched page of the `CommunityPRReviews` query. -/
structure CommunityPage : Type where
  nodes : List CommunityPRNode
  hasNextPage : Bool
deriving DecidableEq

/-- The `for (const pr of prData.nodes)` loop of `getCommunityPRReviewStats`
(github.ts lines 494-579). -/
def processCommunityNodes (since : Nat) (employeesSet : List String) :
    List CommunityPRNode → List CommunityPRReviewData × Bool
  | [] => ([], false)
  | pr :: rest =>
    match pr.mergedAt with
    | some m =>
      if m < since then ([], true)
      else
        let further := processCommunityNodes since employeesSet rest
        (processCommunityPR since employeesSet pr ++ further.1, further.2)
    | none =>
        let further := processCommunityNodes since employeesSet rest
        (processCommunityPR since employeesSet pr ++ further.1, further.2)

/-- The pagination loop of `getCommunityPRReviewStats` (github.ts
lines 481-584). -/
def communityLoop (since : Nat) (employeesSet : List String) :
    List CommunityPage → Nat → List CommunityPRReviewData
  | _, 0 => []
  | [], _ + 1 => []
  | p :: rest, fuel + 1 =>
    let here := processCommunityNodes since employeesSet p.nodes
    if p.hasNextPage && !here.2 then
      here.1 ++ communityLoop since employeesSet rest fuel
    else here.1

/-- `getCommunityPRReviewStats` (github.ts lines 428-587). -/
def getCommunityPRReviewStats (daysBack : ℚ) (since : Nat)
    (pages : List CommunityPage) (employeesSet : List String) :
    Except String (List CommunityPRReviewData) :=
  if daysBack ≤ 0 then .error "daysBack must be a positive number"
  else .ok (communityLoop since employeesSet pages maxPages)

/-! ### `computeReviewerStats` (compute.ts lines 150-279) -/

/-- The fields of the `PR` record (types.ts) that `computeReviewerStats`
reads: the author's login, the author's classification (`authorType`,
one of `employee`/`maintainer`/`community`/`bot`) and the logins under
`requestedReviewers.users`. -/
structure PRData : Type where
  authorLogin : String
  authorType : String
  requestedUsers : List String
deriving DecidableEq

/-- `Reviewer` (types.ts), as produced by `computeReviewerStats`. -/
structure Reviewer : Type where
  name : String
  pendingCount : Nat
  completedTotal : Nat
  completedRequested : Nat
  completedUnrequested : Nat
  requestedTotal : Nat
  completionRate : Option ℚ
  medianReviewTimeHours : Option ℚ
deriving DecidableEq

/-- Modelled from the spec: `src/lib/employees.ts` is not part of the
provided sources (only its callers and the test mock are).  Per §6 the
identity classifier is `isEmployee(login) → bool`, a pure function over
the injected employee set; the repository's test suite mocks it as
`employeesSet.has(login)`, which this definition follows. -/
def isEmployee (login : String) (employeesSet : List String) : Bool :=
  login ∈ employeesSet

/-- The per-reviewer accumulator record of compute.ts lines 186-191. -/
structure StatRec : Type where
  completedTotal : Nat
  completedRequested : Nat
  completedUnrequested : Nat
  reviewTimes : List ℚ
deriving DecidableEq

/-- The zero accumulator (compute.ts lines 196-201, also the default of
line 249). -/
def StatRec.init : StatRec := ⟨0, 0, 0, []⟩

/-- Update the entry of `k` in an association list, inserting
`f StatRec.init` when absent — the `if (!reviewerStats[login])`
initialisation followed by in-place mutation of compute.ts
lines 194-217. -/
def upsertStat : List (String × StatRec) → String → (StatRec → StatRec) →
    List (String × StatRec)
  | [], k, f => [(k, f StatRec.init)]
  | (k', v) :: rest, k, f =>
    if k' = k then (k', f v) :: rest else (k', v) :: upsertStat rest k f

/-- How one `CompletedReviewData` updates its reviewer's accumulator
(compute.ts lines 204-217): bump `completedTotal`; when `requestedAt` is
present bump `completedRequested` and push the duration in hours when it
is strictly positive, otherwise bump `completedUnrequested`. -/
def applyReview (cr : CompletedReviewData) (st : StatRec) : StatRec :=
  let st := { st with completedTotal := st.completedTotal + 1 }
  match cr.requestedAt with
  | some req =>
    let st := { st with completedRequested := st.completedRequested + 1 }
    let reviewTimeHours : ℚ := ((cr.submittedAt : ℚ) - (req : ℚ)) / 3600000
    if 0 < reviewTimeHours then
      { st with reviewTimes := st.reviewTimes ++ [reviewTimeHours] }
    else st
  | none => { st with completedUnrequested := st.completedUnrequested + 1 }

/-- One step of the `for (const review of completedReviews)` fold
(compute.ts lines 193-218). -/
def statStep (m : List (String × StatRec)) (cr : CompletedReviewData) :
    List (String × StatRec) :=
  upsertStat m cr.reviewerLogin (applyReview cr)

/-- Increment a string-keyed counter, modelling
`m[k] = (m[k] || 0) + 1`. -/
def bump : List (String × Nat) → String → List (String × Nat)
  | [], k => [(k, 1)]
  | (k', v) :: rest, k =>
    if k' = k then (k', v + 1) :: rest else (k', v) :: bump rest k

/-- `pendingCounts` (compute.ts lines 178-183): per reviewer, the number
of open pull requests currently listing them as a requested reviewer. -/
def pendingCountsOf (allPrs : List PRData) : List (String × Nat) :=
  allPrs.foldl (fun m pr => pr.requestedUsers.foldl bump m) []

/-- `requestStats` (compute.ts lines 221-225). -/
def requestStatsOf (reviewRequests : List ReviewRequestData) :
    List (String × Nat) :=
  reviewRequests.foldl (fun m rr => bump m rr.reviewerLogin) []

/-- `reviewerStats` (compute.ts lines 186-218). -/
def reviewerStatsOf (completedReviews : List CompletedReviewData) :
    List (String × StatRec) :=
  completedReviews.foldl statStep []

/-- The association test of compute.ts lines 171 and 512. -/
def hasWriteAccessAssoc (assoc : String) : Bool :=
  assoc ∈ ["COLLABORATOR", "MEMBER", "OWNER"]

/-- `maintainersSet` (compute.ts lines 160-175): maintainer-classified
authors of open pull requests, then reviewers with a write-access
association on their completed reviews. -/
def maintainersSetOf (allPrs : List PRData)
    (completedReviews : List CompletedReviewData) : List String :=
  let fromAuthors := allPrs.foldl
    (fun s pr => if pr.authorType = "maintainer" then setAdd s pr.authorLogin else s) []
  completedReviews.foldl
    (fun s cr => if hasWriteAccessAssoc cr.authorAssociation then setAdd s cr.reviewerLogin else s)
    fromAuthors

/-- `new Set([...])` over concatenated key lists (compute.ts
lines 228-232): deduplicate keeping first occurrences. -/
def dedupFirst (xs : List String) : List String :=
  xs.foldl setAdd []

/-- Ascending insertion of a rational into a sorted list; `[...arr].sort((a, b) => a - b)`
sorts numbers ascending. -/
def insertAsc (x : ℚ) : List ℚ → List ℚ
  | [] => [x]
  | y :: ys => if x ≤ y then x :: y :: ys else y :: insertAsc x ys

/-- Ascending sort of the duration samples. -/
def sortAsc : List ℚ → List ℚ
  | [] => []
  | x :: xs => insertAsc x (sortAsc xs)

/-- The `median` helper of compute.ts lines 240-245: `null` on an empty
sample; otherwise sort ascending, and return the middle element for an
odd-length sample or the mean of the two central elements for an
even-length sample. -/
def medianQ (arr : List ℚ) : Option ℚ :=
  match arr with
  | [] => none
  | _ =>
    let sorted := sortAsc arr
    let mid := sorted.length / 2
    if sorted.length % 2 = 0 then
      some ((sorted.getD (mid - 1) 0 + sorted.getD mid 0) / 2)
    else some (sorted.getD mid 0)

/-- Build one `Reviewer` (compute.ts lines 248-273). -/
def buildReviewer (reviewerStats : List (String × StatRec))
    (requestStats pendingCounts : List (String × Nat)) (login : String) :
    Reviewer :=
  let stats := (getVal reviewerStats login).getD StatRec.init
  let requestedTotal := (getVal requestStats login).getD 0
  let pendingCount := (getVal pendingCounts login).getD 0
  { name := login
    pendingCount := pendingCount
    completedTotal := stats.completedTotal
    completedRequested := stats.completedRequested
    completedUnrequested := stats.completedUnrequested
    requestedTotal := requestedTotal
    completionRate :=
      if 0 < requestedTotal then
        some ((stats.completedRequested : ℚ) / (requestedTotal : ℚ) * 100)
      else none
    medianReviewTimeHours := medianQ stats.reviewTimes }

/-- Stable insertion for the final descending sort by `completedTotal`
(compute.ts line 276; `Array.prototype.sort` is stable). -/
def insertByCompletedDesc (x : Reviewer) : List Reviewer → List Reviewer
  | [] => [x]
  | y :: ys =>
    if y.completedTotal ≤ x.completedTotal then x :: y :: ys
    else y :: insertByCompletedDesc x ys

/-- Stable descending sort by `completedTotal`. -/
def sortByCompletedDesc : List Reviewer → List Reviewer
  | [] => []
  | x :: xs => insertByCompletedDesc x (sortByCompletedDesc xs)

/-- `computeReviewerStats` (compute.ts lines 150-279). -/
def computeReviewerStats (allPrs : List PRData) (reviewStatsData : ReviewStatsData)
    (employeesSet : List String) : List Reviewer :=
  let completedReviews := reviewStatsData.completedReviews
  let reviewRequests := reviewStatsData.reviewRequests
  let maintainersSet := maintainersSetOf allPrs completedReviews
  let pendingCounts := pendingCountsOf allPrs
  let reviewerStats := reviewerStatsOf completedReviews
  let requestStats := requestStatsOf reviewRequests
  let allReviewerLogins :=
    dedupFirst (keysOf pendingCounts ++ keysOf reviewerStats ++ keysOf requestStats)
  let filteredLogins := allReviewerLogins.filter
    (fun login => isEmployee login employeesSet || login ∈ maintainersSet)
  sortByCompletedDesc
    (filteredLogins.map (buildReviewer reviewerStats requestStats pendingCounts))

/-! ### Observation functions used in the statements below -/

/-- Number of completed reviews credited to `l`. -/
def countCompleted (l : String) (crs : List CompletedReviewData) : Nat :=
  crs.countP (fun cr => decide (cr.reviewerLogin = l))

/-- Number of completed reviews credited to `l` that carry a matched
request time. -/
def countFulfilled (l : String) (crs : List CompletedReviewData) : Nat :=
  crs.countP (fun cr => decide (cr.reviewerLogin = l ∧ cr.requestedAt.isSome))

/-- Number of completed reviews credited to `l` with no matched request
time. -/
def countUnrequested (l : String) (crs : List CompletedReviewData) : Nat :=
  crs.countP (fun cr => decide (cr.reviewerLogin = l ∧ cr.requestedAt = none))

/-- Number of completed reviews by `l` on pull request `n` that carry a
matched request time. -/
def countFulfilledOn (l : String) (n : Nat) (crs : List CompletedReviewData) : Nat :=
  crs.countP (fun cr =>
    decide (cr.reviewerLogin = l ∧ cr.prNumber = n ∧ cr.requestedAt.isSome))

/-- Number of review-request records naming reviewer `l`. -/
def countRequests (l : String) (rrs : List ReviewRequestData) : Nat :=
  rrs.countP (fun rr => decide (rr.reviewerLogin = l))

/-- The strictly positive durations, in hours, of `l`'s fulfilled
completed reviews, in emission order. -/
def reviewTimesFor (l : String) (crs : List CompletedReviewData) : List ℚ :=
  crs.filterMap (fun cr =>
    match cr.requestedAt with
    | some req =>
      if cr.reviewerLogin = l then
        let reviewTimeHours : ℚ := ((cr.submittedAt : ℚ) - (req : ℚ)) / 3600000
        if 0 < reviewTimeHours then some reviewTimeHours else none
      else none
    | none => none)

/-- The creation times of the `ReviewRequestedEvent`s naming reviewer `l`,
in delivery order. -/
def requestTimesFor (l : String) : List TimelineItem → List Nat
  | [] => []
  | .reviewRequested (some login) t :: rest =>
      if login = l then t :: requestTimesFor l rest else requestTimesFor l rest
  | _ :: rest => requestTimesFor l rest

/-- The substantive reviews authored by `l`, in delivery order, with the
author association defaulted exactly as the reducer does. -/
def reviewsFor (l : String) : List TimelineItem → List ReviewEntry
  | [] => []
  | .pullRequestReview (some login) assoc (some t) state :: rest =>
      if substantiveState state then
        if login = l then
          ⟨login, assoc.getD "NONE", t⟩ :: reviewsFor l rest
        else reviewsFor l rest
      else reviewsFor l rest
  | _ :: rest => reviewsFor l rest

/-- The accumulator record of reviewer `l` in a stats map, defaulting to
the zero record. -/
def statOf (m : List (String × StatRec)) (l : String) : StatRec :=
  (getVal m l).getD StatRec.init

/-- Soundness of fulfillment matching, as a relation between an emitted
completed-review list and a request-record list: every matched request
time is backed by a request record for the same reviewer and pull request,
made inside the window and no later than the review. -/
def FulfillSound (since : Nat) (crs : List CompletedReviewData)
    (rrs : List ReviewRequestData) : Prop :=
  ∀ cr ∈ crs, ∀ t, cr.requestedAt = some t →
    ∃ rr ∈ rrs, rr.reviewerLogin = cr.reviewerLogin ∧ rr.prNumber = cr.prNumber ∧
      rr.requestedAt = t ∧ t ≤ cr.submittedAt ∧ since ≤ t

/-! ### Association-list lemmas -/

theorem getVal_mem {α : Type} : ∀ {m : List (String × α)} {k : String} {v : α},
    getVal m k = some v → (k, v) ∈ m := by
  intro m
  induction m with
  | nil => intro k v h; simp [getVal] at h
  | cons p rest ih =>
    intro k v h
    obtain ⟨pk, pv⟩ := p
    simp only [getVal] at h
    split at h
    · next heq =>
      injection h with h
      subst heq; subst h
      exact List.mem_cons_self _ _
    · exact List.mem_cons_of_mem _ (ih h)

theorem getVal_eq_none_iff {α : Type} : ∀ {m : List (String × α)} {k : String},
    getVal m k = none ↔ k ∉ keysOf m := by
  intro m
  induction m with
  | nil => intro k; simp [getVal, keysOf]
  | cons p rest ih =>
    intro k
    obtain ⟨pk, pv⟩ := p
    simp only [getVal, keysOf, List.map_cons, List.mem_cons]
    split
    · next heq => subst heq; simp
    · next hne =>
      rw [ih]
      simp [keysOf, Ne.symm hne]

theorem getVal_append {α : Type} (m₁ m₂ : List (String × α)) (k : String) :
    getVal (m₁ ++ m₂) k =
      match getVal m₁ k with
      | some v => some v
      | none => getVal m₂ k := by
  induction m₁ with
  | nil => simp [getVal]
  | cons p rest ih =>
    obtain ⟨pk, pv⟩ := p
    simp only [List.cons_append, getVal]
    split <;> simp [ih]

theorem requestedAtInRange_eq_some {since : Nat} {m : List (String × Nat)}
    {login : String} {t : Nat} :
    requestedAtInRange since m login = some t ↔
      getVal m login = some t ∧ since ≤ t := by
  unfold requestedAtInRange
  cases h : getVal m login with
  | none => simp
  | some t1 =>
    by_cases hs : since ≤ t1
    · simp only [hs, if_true, Option.some.injEq]
      exact ⟨fun h' => ⟨h', h' ▸ hs⟩, fun h' => h'.1⟩
    · simp only [hs, if_false]
      constructor
      · intro h'; exact absurd h' (by simp)
      · rintro ⟨h1, h2⟩
        injection h1 with h1
        exact absurd (h1.symm ▸ h2) hs

/-! ### Soundness of the per-PR fulfillment matching -/

theorem matchReviews_sound (since n : Nat) (u : String) (m : List (String × Nat)) :
    ∀ (revs : List ReviewEntry) (fulfilled : List String),
      ∀ cr ∈ matchReviews since n u m revs fulfilled,
        cr.prNumber = n ∧ cr.prUrl = u ∧ since ≤ cr.submittedAt ∧
        ∀ t, cr.requestedAt = some t →
          getVal m cr.reviewerLogin = some t ∧ since ≤ t ∧ t ≤ cr.submittedAt := by
  intro revs
  induction revs with
  | nil => intro fulfilled cr hcr; simp [matchReviews] at hcr
  | cons r rs ih =>
    intro fulfilled cr hcr
    simp only [matchReviews] at hcr
    split at hcr
    · next hle =>
      rcases List.mem_cons.mp hcr with rfl | hmem
      · refine ⟨rfl, rfl, hle, ?_⟩
        intro t ht
        dsimp only at ht
        split at ht
        · next hfirst =>
          rw [Bool.and_eq_true] at hfirst
          obtain ⟨hra, _⟩ := hfirst
          have htIR := ht
          rw [requestedAtInRange_eq_some] at ht
          obtain ⟨hg, hsince⟩ := ht
          rw [htIR] at hra
          simp only [decide_eq_true_eq] at hra
          exact ⟨hg, hsince, hra⟩
        · exact absurd ht (by simp)
      · exact ih _ cr hmem
    · exact ih _ cr hcr

theorem matchReviews_countFulfilled (since n : Nat) (u : String)
    (m : List (String × Nat)) (l : String) :
    ∀ (revs : List ReviewEntry) (fulfilled : List String),
      countFulfilled l (matchReviews since n u m revs fulfilled) ≤
        if l ∈ fulfilled then 0 else 1 := by
  intro revs
  induction revs with
  | nil => intro fulfilled; simp [matchReviews, countFulfilled]
  | cons r rs ih =>
    intro fulfilled
    rw [matchReviews]
    split
    · next hle =>
      simp only [countFulfilled, List.countP_cons] at ih ⊢
      cases hF : ((match requestedAtInRange since m r.login with
          | some t => decide (t ≤ r.submittedAt)
          | none => false) && !decide (r.login ∈ fulfilled)) with
      | true =>
        simp only [hF, eq_self_iff_true, if_true]
        split
        · next hp =>
          simp only [decide_eq_true_eq] at hp
          have hp1 : r.login = l := hp.1
          have hF2 := hF
          rw [Bool.and_eq_true] at hF2
          obtain ⟨-, hnm0⟩ := hF2
          simp only [Bool.not_eq_eq_eq_not, Bool.not_true, decide_eq_false_iff_not] at hnm0
          rw [hp1] at hnm0
          have htail := ih (r.login :: fulfilled)
          have hlmem : l ∈ r.login :: fulfilled := by
            rw [hp1]; exact List.mem_cons_self _ _
          rw [if_pos hlmem] at htail
          have hz := Nat.le_zero.mp htail
          rw [hz, if_neg hnm0]
        · next hp =>
          by_cases hmem : l ∈ fulfilled
          · have htail := ih (r.login :: fulfilled)
            rw [if_pos (List.mem_cons_of_mem _ hmem)] at htail
            rw [if_pos hmem]
            omega
          · rw [if_neg hmem]
            have htail := ih (r.login :: fulfilled)
            have hb : (if l ∈ r.login :: fulfilled then 0 else 1) ≤ 1 := by
              split <;> omega
            omega
      | false =>
        simp only [hF, Bool.false_eq_true, if_false]
        split
        · next hp => simp at hp
        · next hp => simpa using ih fulfilled
    · next hle => exact ih fulfilled

theorem requestRecords_mem {since n : Nat} {m : List (String × Nat)} {l : String}
    {t : Nat} (hg : getVal m l = some t) (ht : since ≤ t) :
    (⟨l, t, n⟩ : ReviewRequestData) ∈ requestRecords since n m := by
  unfold requestRecords
  exact List.mem_map.mpr ⟨(l, t), List.mem_filter.mpr ⟨getVal_mem hg, by simpa⟩, rfl⟩

theorem processPR_fulfillSound (since : Nat) (pr : PRNode) :
    FulfillSound since (processPR since pr).1 (processPR since pr).2 := by
  intro cr hcr t ht
  simp only [processPR] at hcr ⊢
  obtain ⟨hn, hu, hsub, himp⟩ := matchReviews_sound _ _ _ _ _ _ cr hcr
  obtain ⟨hg, hsince, hts⟩ := himp t ht
  exact ⟨⟨cr.reviewerLogin, t, pr.number⟩, requestRecords_mem hg hsince, rfl,
    by rw [hn], rfl, hts, hsince⟩

theorem fulfillSound_append {since : Nat} {a c : List CompletedReviewData}
    {b d : List ReviewRequestData}
    (h1 : FulfillSound since a b) (h2 : FulfillSound since c d) :
    FulfillSound since (a ++ c) (b ++ d) := by
  intro cr hcr t ht
  rcases List.mem_append.mp hcr with h | h
  · obtain ⟨rr, hrr, hprops⟩ := h1 cr h t ht
    exact ⟨rr, List.mem_append.mpr (Or.inl hrr), hprops⟩
  · obtain ⟨rr, hrr, hprops⟩ := h2 cr h t ht
    exact ⟨rr, List.mem_append.mpr (Or.inr hrr), hprops⟩

theorem processNodes_fulfillSound (since : Nat) :
    ∀ nodes : List PRNode,
      FulfillSound since (processNodes since nodes).1.1 (processNodes since nodes).1.2 := by
  intro nodes
  induction nodes with
  | nil => intro cr hcr; simp [processNodes] at hcr
  | cons pr rest ih =>
    rw [processNodes]
    cases hm : pr.mergedAt with
    | some mm =>
      by_cases hlt : mm < since
      · simp only [hlt, if_true]
        intro cr hcr
        exact absurd hcr (List.not_mem_nil cr)
      · simp only [hlt, if_false]
        exact fulfillSound_append (processPR_fulfillSound since pr) ih
    | none => exact fulfillSound_append (processPR_fulfillSound since pr) ih

theorem fetchLoop_fulfillSound (since : Nat) :
    ∀ (pages : List Page) (fuel : Nat),
      FulfillSound since (fetchLoop since pages fuel).1 (fetchLoop since pages fuel).2 := by
  intro pages
  induction pages with
  | nil =>
    intro fuel
    cases fuel <;> (intro cr hcr; simp [fetchLoop] at hcr)
  | cons p rest ih =>
    intro fuel
    cases fuel with
    | zero => intro cr hcr; simp [fetchLoop] at hcr
    | succ f =>
      simp only [fetchLoop]
      split
      · exact fulfillSound_append (processNodes_fulfillSound since p.nodes) (ih f)
      · exact processNodes_fulfillSound since p.nodes

/-- C1 — Fulfillment soundness: every completed review emitted by
`getRecentlyMergedPRsWithReviews` with a non-null `requestedAt` is backed
by a review-request record in the returned `reviewRequests` list for the
same reviewer and pull request, carrying the same request time, with the
request no later than the review and inside the lookback window. -/
theorem fulfillment_soundness (daysBack : ℚ) (since : Nat) (pages : List Page)
    (out : ReviewStatsData)
    (hok : getRecentlyMergedPRsWithReviews daysBack since pages = .ok out) :
    ∀ cr ∈ out.completedReviews, ∀ t, cr.requestedAt = some t →
      ∃ rr ∈ out.reviewRequests, rr.reviewerLogin = cr.reviewerLogin ∧
        rr.prNumber = cr.prNumber ∧ rr.requestedAt = t ∧
        t ≤ cr.submittedAt ∧ since ≤ t := by
  unfold getRecentlyMergedPRsWithReviews at hok
  split at hok
  · exact absurd hok (by simp)
  · injection hok with hok
    subst hok
    exact fun cr hcr t ht => fetchLoop_fulfillSound since pages maxPages cr hcr t ht

/-- Witness for C1 at a concrete one-page input: a request for `r` at
time 100 followed by an approved review at time 300, window start 50. -/
theorem fulfillment_soundness_witness :
    ∃ rr ∈ ({ completedReviews := [⟨"r", "MEMBER", 300, some 100, 1, "u"⟩],
              reviewRequests := [⟨"r", 100, 1⟩] } : ReviewStatsData).reviewRequests,
      rr.reviewerLogin =
        (⟨"r", "MEMBER", 300, some 100, 1, "u"⟩ : CompletedReviewData).reviewerLogin ∧
      rr.prNumber =
        (⟨"r", "MEMBER", 300, some 100, 1, "u"⟩ : CompletedReviewData).prNumber ∧
      rr.requestedAt = 100 ∧
      100 ≤ (⟨"r", "MEMBER", 300, some 100, 1, "u"⟩ : CompletedReviewData).submittedAt ∧
      50 ≤ 100 :=
  fulfillment_soundness 30 50
    [⟨[⟨1, "u", some 1000,
        [.reviewRequested (some "r") 100,
         .pullRequestReview (some "r") (some "MEMBER") (some 300) "APPROVED"]⟩], false⟩]
    ⟨[⟨"r", "MEMBER", 300, some 100, 1, "u"⟩], [⟨"r", 100, 1⟩]⟩ (by rfl)
    ⟨"r", "MEMBER", 300, some 100, 1, "u"⟩ (by simp) 100 (by rfl)

theorem processPR_mem_number (since : Nat) (pr : PRNode) :
    ∀ cr ∈ (processPR since pr).1, cr.prNumber = pr.number := by
  intro cr hcr
  simp only [processPR] at hcr
  exact (matchReviews_sound _ _ _ _ _ _ cr hcr).1

theorem processPR_countFulfilled (since : Nat) (pr : PRNode) (l : String) :
    countFulfilled l (processPR since pr).1 ≤ 1 := by
  simp only [processPR]
  simpa using matchReviews_countFulfilled since pr.number pr.url
    (reduceTimeline pr.timelineItems).1 l (reduceTimeline pr.timelineItems).2 []

theorem countFulfilledOn_le (l : String) (n : Nat) (crs : List CompletedReviewData) :
    countFulfilledOn l n crs ≤ countFulfilled l crs := by
  induction crs with
  | nil => simp [countFulfilledOn, countFulfilled]
  | cons cr rest ih =>
    simp only [countFulfilledOn, countFulfilled, List.countP_cons] at ih ⊢
    have : (if decide (cr.reviewerLogin = l ∧ cr.prNumber = n ∧ cr.requestedAt.isSome) = true
        then 1 else 0) ≤
        (if decide (cr.reviewerLogin = l ∧ cr.requestedAt.isSome) = true then 1 else 0) := by
      by_cases h : cr.reviewerLogin = l ∧ cr.prNumber = n ∧ cr.requestedAt.isSome
      · simp [h, h.1, h.2.2]
      · simp [h]
    omega

theorem countFulfilledOn_eq_zero {l : String} {n : Nat} {crs : List CompletedReviewData}
    (h : ∀ cr ∈ crs, cr.prNumber ≠ n) : countFulfilledOn l n crs = 0 := by
  rw [countFulfilledOn, List.countP_eq_zero]
  intro cr hcr
  simp only [decide_eq_true_eq, not_and]
  intro _ hn
  exact absurd hn (h cr hcr)

theorem processNodes_mem_number (since : Nat) :
    ∀ (nodes : List PRNode), ∀ cr ∈ (processNodes since nodes).1.1,
      cr.prNumber ∈ nodes.map PRNode.number := by
  intro nodes
  induction nodes with
  | nil => intro cr hcr; simp [processNodes] at hcr
  | cons pr rest ih =>
    intro cr hcr
    rw [processNodes] at hcr
    cases hm : pr.mergedAt with
    | some mm =>
      rw [hm] at hcr
      by_cases hlt : mm < since
      · simp only [hlt, if_true] at hcr
        exact absurd hcr (List.not_mem_nil cr)
      · simp only [hlt, if_false] at hcr
        rcases List.mem_append.mp hcr with h | h
        · exact List.mem_map.mpr ⟨pr, List.mem_cons_self _ _, (processPR_mem_number since pr cr h).symm⟩
        · simp only [List.map_cons, List.mem_cons]
          exact Or.inr (by simpa using ih cr h)
    | none =>
      rw [hm] at hcr
      rcases List.mem_append.mp hcr with h | h
      · exact List.mem_map.mpr ⟨pr, List.mem_cons_self _ _, (processPR_mem_number since pr cr h).symm⟩
      · simp only [List.map_cons, List.mem_cons]
        exact Or.inr (by simpa using ih cr h)

theorem processNodes_countFulfilledOn (since : Nat) (l : String) (n : Nat) :
    ∀ (nodes : List PRNode), (nodes.map PRNode.number).Nodup →
      countFulfilledOn l n (processNodes since nodes).1.1 ≤ 1 := by
  intro nodes
  induction nodes with
  | nil => intro _; simp [processNodes, countFulfilledOn]
  | cons pr rest ih =>
    intro hnd
    simp only [List.map_cons, List.nodup_cons] at hnd
    obtain ⟨hnotin, hndrest⟩ := hnd
    rw [processNodes]
    cases hm : pr.mergedAt with
    | some mm =>
      by_cases hlt : mm < since
      · simp [hlt, countFulfilledOn]
      · simp only [hlt, if_false]
        rw [show countFulfilledOn l n ((processPR since pr).1 ++ (processNodes since rest).1.1)
            = countFulfilledOn l n (processPR since pr).1 +
              countFulfilledOn l n (processNodes since rest).1.1 from
          List.countP_append _ _ _]
        by_cases hn : pr.number = n
        · have h2 : countFulfilledOn l n (processNodes since rest).1.1 = 0 := by
            apply countFulfilledOn_eq_zero
            intro cr hcr hceq
            apply hnotin
            rw [hn, ← hceq]
            exact processNodes_mem_number since rest cr hcr
          have h1 : countFulfilledOn l n (processPR since pr).1 ≤ 1 :=
            le_trans (countFulfilledOn_le l n _) (processPR_countFulfilled since pr l)
          omega
        · have h1 : countFulfilledOn l n (processPR since pr).1 = 0 := by
            apply countFulfilledOn_eq_zero
            intro cr hcr
            rw [processPR_mem_number since pr cr hcr]
            exact hn
          have h2 := ih hndrest
          omega
    | none =>
      rw [show countFulfilledOn l n ((processPR since pr).1 ++ (processNodes since rest).1.1)
          = countFulfilledOn l n (processPR since pr).1 +
            countFulfilledOn l n (processNodes since rest).1.1 from
        List.countP_append _ _ _]
      by_cases hn : pr.number = n
      · have h2 : countFulfilledOn l n (processNodes since rest).1.1 = 0 := by
          apply countFulfilledOn_eq_zero
          intro cr hcr hceq
          apply hnotin
          rw [hn, ← hceq]
          exact processNodes_mem_number since rest cr hcr
        have h1 : countFulfilledOn l n (processPR since pr).1 ≤ 1 :=
          le_trans (countFulfilledOn_le l n _) (processPR_countFulfilled since pr l)
        omega
      · have h1 : countFulfilledOn l n (processPR since pr).1 = 0 := by
          apply countFulfilledOn_eq_zero
          intro cr hcr
          rw [processPR_mem_number since pr cr hcr]
          exact hn
        have h2 := ih hndrest
        omega

theorem fetchLoop_mem_number (since : Nat) :
    ∀ (pages : List Page) (fuel : Nat), ∀ cr ∈ (fetchLoop since pages fuel).1,
      cr.prNumber ∈ (pages.flatMap Page.nodes).map PRNode.number := by
  intro pages
  induction pages with
  | nil => intro fuel cr hcr; cases fuel <;> simp [fetchLoop] at hcr
  | cons p rest ih =>
    intro fuel cr hcr
    cases fuel with
    | zero => simp [fetchLoop] at hcr
    | succ f =>
      simp only [fetchLoop] at hcr
      simp only [List.flatMap_cons, List.map_append, List.mem_append]
      split at hcr
      · rcases List.mem_append.mp hcr with h | h
        · exact Or.inl (processNodes_mem_number since p.nodes cr h)
        · exact Or.inr (ih f cr h)
      · exact Or.inl (processNodes_mem_number since p.nodes cr hcr)

theorem fetchLoop_countFulfilledOn (since : Nat) (l : String) (n : Nat) :
    ∀ (pages : List Page) (fuel : Nat),
      (((pages.flatMap Page.nodes).map PRNode.number).Nodup) →
      countFulfilledOn l n (fetchLoop since pages fuel).1 ≤ 1 := by
  intro pages
  induction pages with
  | nil => intro fuel _; cases fuel <;> simp [fetchLoop, countFulfilledOn]
  | cons p rest ih =>
    intro fuel hnd
    simp only [List.flatMap_cons, List.map_append, List.nodup_append] at hnd
    obtain ⟨hndA, hndB, hdisj⟩ := hnd
    cases fuel with
    | zero => simp [fetchLoop, countFulfilledOn]
    | succ f =>
      simp only [fetchLoop]
      split
      · rw [show countFulfilledOn l n
              ((processNodes since p.nodes).1.1 ++ (fetchLoop since rest f).1)
            = countFulfilledOn l n (processNodes since p.nodes).1.1 +
              countFulfilledOn l n (fetchLoop since rest f).1 from
          List.countP_append _ _ _]
        by_cases hnA : n ∈ p.nodes.map PRNode.number
        · have h2 : countFulfilledOn l n (fetchLoop since rest f).1 = 0 := by
            apply countFulfilledOn_eq_zero
            intro cr hcr hceq
            exact hdisj hnA (hceq ▸ fetchLoop_mem_number since rest f cr hcr)
          have h1 := processNodes_countFulfilledOn since l n p.nodes hndA
          omega
        · have h1 : countFulfilledOn l n (processNodes since p.nodes).1.1 = 0 := by
            apply countFulfilledOn_eq_zero
            intro cr hcr hceq
            exact hnA (hceq ▸ processNodes_mem_number since p.nodes cr hcr)
          have h2 := ih f hndB
          omega
      · exact processNodes_countFulfilledOn since l n p.nodes hndA

/-- C2 — Fulfillment uniqueness: over a stream in which each pull request
appears once (pairwise distinct pull-request numbers), at most one
completed review per (reviewer, pull request) pair emitted by
`getRecentlyMergedPRsWithReviews` carries a non-null `requestedAt`. -/
theorem fulfillment_uniqueness (daysBack : ℚ) (since : Nat) (pages : List Page)
    (out : ReviewStatsData) (l : String) (n : Nat)
    (hok : getRecentlyMergedPRsWithReviews daysBack since pages = .ok out)
    (hnodup : ((pages.flatMap Page.nodes).map PRNode.number).Nodup) :
    countFulfilledOn l n out.completedReviews ≤ 1 := by
  unfold getRecentlyMergedPRsWithReviews at hok
  split at hok
  · exact absurd hok (by simp)
  · injection hok with hok
    subst hok
    exact fetchLoop_countFulfilledOn since l n pages maxPages hnodup

/-- Witness for C2 at a concrete input: one request and two reviews by the
same reviewer on pull request 1; only the first review is matched. -/
theorem fulfillment_uniqueness_witness :
    countFulfilledOn "r" 1
      ({ completedReviews := [⟨"r", "MEMBER", 300, some 100, 1, "u"⟩,
                              ⟨"r", "MEMBER", 400, none, 1, "u"⟩],
         reviewRequests := [⟨"r", 100, 1⟩] } : ReviewStatsData).completedReviews ≤ 1 :=
  fulfillment_uniqueness 30 50
    [⟨[⟨1, "u", some 1000,
        [.reviewRequested (some "r") 100,
         .pullRequestReview (some "r") (some "MEMBER") (some 300) "APPROVED",
         .pullRequestReview (some "r") (some "MEMBER") (some 400) "COMMENTED"]⟩], false⟩]
    ⟨[⟨"r", "MEMBER", 300, some 100, 1, "u"⟩, ⟨"r", "MEMBER", 400, none, 1, "u"⟩],
     [⟨"r", 100, 1⟩]⟩ "r" 1 (by rfl) (by simp)

theorem processNodes_stop (since : Nat) (post : List PRNode) (bad : PRNode)
    (mAt : Nat) (hbad : bad.mergedAt = some mAt) (hlt : mAt < since) :
    ∀ pre : List PRNode,
      processNodes since (pre ++ bad :: post) = ((processNodes since pre).1, true) := by
  intro pre
  induction pre with
  | nil => simp [processNodes, hbad, hlt]
  | cons pr rest ih =>
    cases hm : pr.mergedAt with
    | some mm =>
      by_cases hl2 : mm < since
      · simp [processNodes, hm, hl2]
      · simp [processNodes, hm, hl2, ih]
    | none => simp [processNodes, hm, ih]

theorem fetchLoop_stop (since : Nat) (pre post : List PRNode) (bad : PRNode)
    (mAt : Nat) (rest : List Page) (b : Bool) (fuel : Nat)
    (hbad : bad.mergedAt = some mAt) (hlt : mAt < since) :
    fetchLoop since (⟨pre ++ bad :: post, b⟩ :: rest) fuel =
      fetchLoop since [⟨pre, false⟩] fuel := by
  cases fuel with
  | zero => rfl
  | succ f =>
    simp only [fetchLoop]
    rw [processNodes_stop since post bad mAt hbad hlt pre]
    simp

/-- C7 — Pagination early termination: a merged pull request whose merge
time precedes the window start stops consumption at that pull request;
the run is equal to a run over the same page truncated before that pull
request with pagination disabled, so later items of the page and all
later pages contribute nothing. -/
theorem pagination_early_termination (daysBack : ℚ) (since mAt : Nat)
    (pre post : List PRNode) (bad : PRNode) (rest : List Page) (b : Bool)
    (hbad : bad.mergedAt = some mAt) (hlt : mAt < since) :
    getRecentlyMergedPRsWithReviews daysBack since (⟨pre ++ bad :: post, b⟩ :: rest) =
      getRecentlyMergedPRsWithReviews daysBack since [⟨pre, false⟩] := by
  unfold getRecentlyMergedPRsWithReviews
  split
  · rfl
  · rw [fetchLoop_stop since pre post bad mAt rest b maxPages hbad hlt]

/-- Witness for C7: with window start 50, a pull request merged at 40
cuts off a same-page successor and a further page. -/
theorem pagination_early_termination_witness :
    (some (40 : Nat) = some 40) ∧ (40 : Nat) < 50 ∧
    getRecentlyMergedPRsWithReviews 30 50
        [⟨[⟨1, "a", some 1000, []⟩] ++ ⟨2, "b", some 40, []⟩ ::
            [⟨3, "c", some 1000, [.reviewRequested (some "z") 100]⟩], true⟩,
          ⟨[⟨4, "d", some 1000, [.reviewRequested (some "q") 100]⟩], false⟩] =
      getRecentlyMergedPRsWithReviews 30 50 [⟨[⟨1, "a", some 1000, []⟩], false⟩] :=
  ⟨rfl, by decide,
    pagination_early_termination 30 50 40 [⟨1, "a", some 1000, []⟩]
      [⟨3, "c", some 1000, [.reviewRequested (some "z") 100]⟩]
      ⟨2, "b", some 40, []⟩
      [⟨[⟨4, "d", some 1000, [.reviewRequested (some "q") 100]⟩], false⟩] true
      rfl (by decide)⟩

theorem getVal_reduceAux (l : String) :
    ∀ (items : List TimelineItem) (m : List (String × Nat)),
      getVal (reduceAux m items).1 l =
        match getVal m l with
        | some t => some t
        | none => (requestTimesFor l items).head? := by
  intro items
  induction items with
  | nil => intro m; cases hml : getVal m l <;> simp [reduceAux, requestTimesFor, hml]
  | cons item rest ih =>
    intro m
    cases item with
    | reviewRequested login t =>
      cases login with
      | none => simpa [reduceAux, requestTimesFor] using ih m
      | some lg =>
        by_cases hg : (getVal m lg).isNone
        · rw [show reduceAux m (.reviewRequested (some lg) t :: rest)
              = reduceAux (m ++ [(lg, t)]) rest by simp [reduceAux, hg]]
          rw [ih (m ++ [(lg, t)]), getVal_append]
          cases hml : getVal m l with
          | some v => simp
          | none =>
            by_cases hll : lg = l
            · subst hll
              simp [requestTimesFor, getVal]
            · simp [hll, requestTimesFor, getVal]
        · rw [show reduceAux m (.reviewRequested (some lg) t :: rest)
              = reduceAux m rest by simp [reduceAux, hg]]
          rw [ih m]
          cases hml : getVal m l with
          | some v => simp
          | none =>
            by_cases hll : lg = l
            · subst hll
              rw [hml] at hg
              simp at hg
            · simp [hll, requestTimesFor]
    | pullRequestReview login assoc sub st =>
      cases login with
      | none => simpa [reduceAux, requestTimesFor] using ih m
      | some lg =>
        cases sub with
        | none => simpa [reduceAux, requestTimesFor] using ih m
        | some ts2 =>
          by_cases hst : substantiveState st
          · simpa [reduceAux, requestTimesFor, hst] using ih m
          · simpa [reduceAux, requestTimesFor, hst] using ih m
    | readyForReview t => simpa [reduceAux, requestTimesFor] using ih m

theorem reduceAux_reviews (l : String) :
    ∀ (items : List TimelineItem) (m : List (String × Nat)),
      (reduceAux m items).2.filter (fun r => r.login = l) = reviewsFor l items := by
  intro items
  induction items with
  | nil => intro m; simp [reduceAux, reviewsFor]
  | cons item rest ih =>
    intro m
    cases item with
    | reviewRequested login t =>
      cases login with
      | none => simpa [reduceAux, reviewsFor] using ih m
      | some lg =>
        by_cases hg : (getVal m lg).isNone
        · rw [show reduceAux m (.reviewRequested (some lg) t :: rest)
              = reduceAux (m ++ [(lg, t)]) rest by simp [reduceAux, hg]]
          simpa [reviewsFor] using ih (m ++ [(lg, t)])
        · rw [show reduceAux m (.reviewRequested (some lg) t :: rest)
              = reduceAux m rest by simp [reduceAux, hg]]
          simpa [reviewsFor] using ih m
    | pullRequestReview login assoc sub st =>
      cases login with
      | none => simpa [reduceAux, reviewsFor] using ih m
      | some lg =>
        cases sub with
        | none => simpa [reduceAux, reviewsFor] using ih m
        | some ts2 =>
          by_cases hst : substantiveState st
          · by_cases hll : lg = l
            · subst hll
              simp only [reduceAux, hst, if_true, reviewsFor, List.filter_cons]
              simpa using ih m
            · simp only [reduceAux, hst, if_true, reviewsFor, List.filter_cons]
              simpa [hll] using ih m
          · simpa [reduceAux, reviewsFor, hst] using ih m
    | readyForReview t => simpa [reduceAux, reviewsFor] using ih m

theorem reduceAux_keys_nodup :
    ∀ (items : List TimelineItem) (m : List (String × Nat)),
      (keysOf m).Nodup → (keysOf (reduceAux m items).1).Nodup := by
  intro items
  induction items with
  | nil => intro m h; simpa [reduceAux] using h
  | cons item rest ih =>
    intro m h
    cases item with
    | reviewRequested login t =>
      cases login with
      | none => simpa [reduceAux] using ih m h
      | some lg =>
        by_cases hg : (getVal m lg).isNone
        · rw [show reduceAux m (.reviewRequested (some lg) t :: rest)
              = reduceAux (m ++ [(lg, t)]) rest by simp [reduceAux, hg]]
          apply ih
          have hnotin : lg ∉ keysOf m :=
            getVal_eq_none_iff.mp (Option.isNone_iff_eq_none.mp hg)
          have hkeys : keysOf (m ++ [(lg, t)]) = keysOf m ++ [lg] := by simp [keysOf]
          rw [hkeys]
          refine List.Nodup.append h (List.nodup_singleton lg) ?_
          intro x hx hx2
          simp only [List.mem_singleton] at hx2
          subst hx2
          exact hnotin hx
        · rw [show reduceAux m (.reviewRequested (some lg) t :: rest)
              = reduceAux m rest by simp [reduceAux, hg]]
          exact ih m h
    | pullRequestReview login assoc sub st =>
      cases login with
      | none => simpa [reduceAux] using ih m h
      | some lg =>
        cases sub with
        | none => simpa [reduceAux] using ih m h
        | some ts2 =>
          by_cases hst : substantiveState st
          · simpa [reduceAux, hst] using ih m h
          · simpa [reduceAux, hst] using ih m h
    | readyForReview t => simpa [reduceAux] using ih m h

theorem requestRecords_filter_nil (since n : Nat) (l : String) :
    ∀ m : List (String × Nat), l ∉ keysOf m →
      (requestRecords since n m).filter (fun rr => rr.reviewerLogin = l) = [] := by
  intro m
  induction m with
  | nil => intro _; simp [requestRecords]
  | cons p rest ih =>
    intro hnotin
    obtain ⟨pk, pv⟩ := p
    simp only [keysOf, List.map_cons, List.mem_cons, not_or] at hnotin
    obtain ⟨hne, hrest⟩ := hnotin
    have hne2 : ¬(pk = l) := fun hh => hne hh.symm
    have htail := ih (by simpa [keysOf] using hrest)
    simp only [requestRecords, List.filter_cons] at htail ⊢
    by_cases hq : since ≤ pv
    · simpa [hq, hne2] using htail
    · simpa [hq] using htail

theorem requestRecords_filter (since n : Nat) (l : String) :
    ∀ m : List (String × Nat), (keysOf m).Nodup →
      ∀ t, getVal m l = some t → since ≤ t →
        (requestRecords since n m).filter (fun rr => rr.reviewerLogin = l) =
          [⟨l, t, n⟩] := by
  intro m
  induction m with
  | nil => intro _ t hg; simp [getVal] at hg
  | cons p rest ih =>
    intro hnd t hg hts
    obtain ⟨pk, pv⟩ := p
    simp only [keysOf, List.map_cons, List.nodup_cons] at hnd
    obtain ⟨hnotin, hndrest⟩ := hnd
    simp only [getVal] at hg
    by_cases hpk : pk = l
    · subst hpk
      rw [if_pos rfl] at hg
      injection hg with hg
      subst hg
      have hnil := requestRecords_filter_nil since n pk rest (by simpa [keysOf] using hnotin)
      simp only [requestRecords, List.filter_cons] at hnil ⊢
      simp [hts, hnil]
    · rw [if_neg hpk] at hg
      have htail := ih (by simpa [keysOf] using hndrest) t hg hts
      simp only [requestRecords, List.filter_cons] at htail ⊢
      by_cases hq : since ≤ pv
      · simpa [hq, hpk] using htail
      · simpa [hq] using htail

theorem matchReviews_filter (since n : Nat) (u : String) (m : List (String × Nat))
    (l : String) :
    ∀ (revs : List ReviewEntry) (f1 f2 : List String), ((l ∈ f1) ↔ (l ∈ f2)) →
      (matchReviews since n u m revs f1).filter (fun cr => cr.reviewerLogin = l) =
        matchReviews since n u m (revs.filter (fun r => r.login = l)) f2 := by
  intro revs
  induction revs with
  | nil => intro f1 f2 _; simp [matchReviews]
  | cons r rs ih =>
    intro f1 f2 hiff
    by_cases hl : r.login = l
    · rw [show (r :: rs).filter (fun r => r.login = l)
          = r :: rs.filter (fun r => r.login = l) by
            rw [List.filter_cons, if_pos (by simpa using hl)]]
      by_cases hle : since ≤ r.submittedAt
      · have hdec : decide (r.login ∈ f1) = decide (r.login ∈ f2) :=
          decide_eq_decide.mpr (by rw [hl]; exact hiff)
        simp only [matchReviews, hle, if_true]
        rw [hdec, List.filter_cons]
        generalize ((match requestedAtInRange since m r.login with
            | some t => decide (t ≤ r.submittedAt)
            | none => false) && !decide (r.login ∈ f2)) = B
        cases B with
        | true =>
          simp only [if_pos, eq_self_iff_true, if_true]
          rw [if_pos (by simpa using hl)]
          rw [ih (r.login :: f1) (r.login :: f2) (by simp [hiff])]
        | false =>
          simp only [Bool.false_eq_true, if_false]
          rw [if_pos (by simpa using hl)]
          rw [ih f1 f2 hiff]
      · simp only [matchReviews, hle, if_false]
        exact ih f1 f2 hiff
    · rw [show (r :: rs).filter (fun r => r.login = l)
          = rs.filter (fun r => r.login = l) by
            rw [List.filter_cons, if_neg (by simpa using hl)]]
      by_cases hle : since ≤ r.submittedAt
      · simp only [matchReviews, hle, if_true]
        rw [List.filter_cons]
        generalize hB : ((match requestedAtInRange since m r.login with
            | some t => decide (t ≤ r.submittedAt)
            | none => false) && !decide (r.login ∈ f1)) = B
        cases B with
        | true =>
          simp only [if_pos, eq_self_iff_true, if_true]
          rw [if_neg (by simpa using hl)]
          refine ih (r.login :: f1) f2 ?_
          constructor
          · intro hmm
            rcases List.mem_cons.mp hmm with h | h
            · exact absurd h.symm hl
            · exact hiff.mp h
          · intro hmm
            exact List.mem_cons_of_mem _ (hiff.mpr hmm)
        | false =>
          simp only [Bool.false_eq_true, if_false]
          rw [if_neg (by simpa using hl)]
          exact ih f1 f2 hiff
      · simp only [matchReviews, hle, if_false]
        exact ih f1 f2 hiff

theorem fetchLoop_single (since : Nat) (nodes : List PRNode) (b : Bool) (fuel : Nat) :
    fetchLoop since [⟨nodes, b⟩] (fuel + 1) = (processNodes since nodes).1 := by
  simp only [fetchLoop]
  split
  · cases fuel <;> simp [fetchLoop]
  · rfl

theorem processNodes_single (since : Nat) (pr : PRNode) (mAt : Nat)
    (hm : pr.mergedAt = some mAt) (hge : since ≤ mAt) :
    (processNodes since [pr]).1 =
      ((processPR since pr).1, (processPR since pr).2) := by
  rw [processNodes, hm]
  simp [Nat.not_lt.mpr hge, processNodes]

/-- C5 — Earliest-request matching: over any pull-request timeline in
which reviewer `l`'s first request is at `T1`, `l` is re-requested at
`T2 > T1` (both in the window), and `l`'s only substantive review is
submitted after `T2` (in the window), the emitted completed review for
`l` carries `requestedAt = T1`, not `T2`. -/
theorem earliest_request_matching (daysBack : ℚ) (since T1 T2 T3 n mAt : Nat)
    (u l a : String) (b : Bool) (ts : List TimelineItem) (out : ReviewStatsData)
    (hok : getRecentlyMergedPRsWithReviews daysBack since
      [⟨[⟨n, u, some mAt, ts⟩], b⟩] = .ok out)
    (hhead : (requestTimesFor l ts).head? = some T1)
    (hT2 : T2 ∈ (requestTimesFor l ts).tail)
    (hrev : reviewsFor l ts = [⟨l, a, T3⟩])
    (h1 : since ≤ T1) (h12 : T1 < T2) (h23 : T2 < T3) (hm : since ≤ mAt) :
    out.completedReviews.filter (fun cr => cr.reviewerLogin = l) =
      [⟨l, a, T3, some T1, n, u⟩] := by
  unfold getRecentlyMergedPRsWithReviews at hok
  split at hok
  · exact absurd hok (by simp)
  · injection hok with hok
    subst hok
    rw [show maxPages = 4 + 1 from rfl, fetchLoop_single]
    rw [processNodes_single since ⟨n, u, some mAt, ts⟩ mAt rfl hm]
    simp only [processPR]
    have hM : getVal (reduceTimeline ts).1 l = some T1 := by
      have h0 := getVal_reduceAux l ts []
      rw [reduceTimeline]
      simp only [getVal] at h0
      rw [h0, hhead]
    have hIR : requestedAtInRange since (reduceTimeline ts).1 l = some T1 := by
      unfold requestedAtInRange
      rw [hM]
      simp [h1]
    rw [matchReviews_filter since n u (reduceTimeline ts).1 l
      (reduceTimeline ts).2 [] [] Iff.rfl]
    rw [show (reduceTimeline ts).2.filter (fun r => r.login = l) = [⟨l, a, T3⟩] by
      rw [reduceTimeline, reduceAux_reviews]; exact hrev]
    have hT3 : since ≤ T3 := le_trans h1 (le_of_lt (lt_trans h12 h23))
    have hT13 : T1 ≤ T3 := le_of_lt (lt_trans h12 h23)
    rw [matchReviews]
    simp only [hT3, if_true, hIR, hT13, decide_eq_true_eq]
    simp [matchReviews, hT13]

/-- Witness for C5 at a concrete timeline: requests for `r` at 100 and
200, an approved review at 300, window start 50; the matched request time
is 100. -/
theorem earliest_request_matching_witness :
    ({ completedReviews := [⟨"r", "X", 300, some 100, 1, "u"⟩],
       reviewRequests := [⟨"r", 100, 1⟩] } : ReviewStatsData).completedReviews.filter
        (fun cr => cr.reviewerLogin = "r") =
      [⟨"r", "X", 300, some 100, 1, "u"⟩] :=
  earliest_request_matching 30 50 100 200 300 1 1000 "u" "r" "X" false
    [.reviewRequested (some "r") 100,
     .reviewRequested (some "r") 200,
     .pullRequestReview (some "r") (some "X") (some 300) "APPROVED"]
    ⟨[⟨"r", "X", 300, some 100, 1, "u"⟩], [⟨"r", 100, 1⟩]⟩
    (by rfl) (by rfl) (by simp [requestTimesFor]) (by rfl)
    (by decide) (by decide) (by decide) (by decide)

/-- Counterexample for C4: a reviewer requested twice on one pull request
(both in the window); `getRecentlyMergedPRsWithReviews` returns exactly
one `ReviewRequestData` (the first request time), not two. -/
theorem rerequest_counting_cex :
    (getRecentlyMergedPRsWithReviews 30 50
        [⟨[⟨1, "u", some 1000,
            [.reviewRequested (some "r") 100,
             .reviewRequested (some "r") 200]⟩], false⟩] =
      .ok ⟨[], [⟨"r", 100, 1⟩]⟩) ∧
    ¬ ([(⟨"r", 100, 1⟩ : ReviewRequestData)].length = 2) :=
  ⟨by rfl, by simp⟩

/-- C4 amended — Re-request recording: when reviewer `l` is requested at
`T1` and re-requested at `T2` (both in the window) on one pull request,
the later re-request is ignored entirely: the function returns exactly one
`ReviewRequestRecord` for that reviewer on that pull request, carrying the
earliest time `T1`, so the reviewer's `requestedTotal` counts one request,
not two. -/
theorem rerequest_counting_amended (daysBack : ℚ) (since T1 T2 n mAt : Nat)
    (u l : String) (b : Bool) (ts : List TimelineItem) (out : ReviewStatsData)
    (hok : getRecentlyMergedPRsWithReviews daysBack since
      [⟨[⟨n, u, some mAt, ts⟩], b⟩] = .ok out)
    (hreq : requestTimesFor l ts = [T1, T2])
    (h1 : since ≤ T1) (h2 : since ≤ T2) (hm : since ≤ mAt) :
    out.reviewRequests.filter (fun rr => rr.reviewerLogin = l) = [⟨l, T1, n⟩] := by
  unfold getRecentlyMergedPRsWithReviews at hok
  split at hok
  · exact absurd hok (by simp)
  · injection hok with hok
    subst hok
    rw [show maxPages = 4 + 1 from rfl, fetchLoop_single]
    rw [processNodes_single since ⟨n, u, some mAt, ts⟩ mAt rfl hm]
    simp only [processPR]
    have hM : getVal (reduceTimeline ts).1 l = some T1 := by
      have h0 := getVal_reduceAux l ts []
      rw [reduceTimeline]
      simp only [getVal] at h0
      rw [h0, hreq]
      rfl
    exact requestRecords_filter since n l (reduceTimeline ts).1
      (reduceAux_keys_nodup ts [] (by simp [keysOf])) T1 hM h1

/-- Witness for C4 (amended) at a concrete timeline: requests for `r` at
100 and 200, window start 50; exactly one record, at time 100. -/
theorem rerequest_counting_amended_witness :
    ({ completedReviews := [],
       reviewRequests := [⟨"r", 100, 1⟩] } : ReviewStatsData).reviewRequests.filter
        (fun rr => rr.reviewerLogin = "r") = [⟨"r", 100, 1⟩] :=
  rerequest_counting_amended 30 50 100 200 1 1000 "u" "r" false
    [.reviewRequested (some "r") 100, .reviewRequested (some "r") 200]
    ⟨[], [⟨"r", 100, 1⟩]⟩ (by rfl) (by simp [requestTimesFor]) (by decide) (by decide)
    (by decide)

/-! ### Lemmas on the aggregation folds of `computeReviewerStats` -/

theorem getVal_upsertStat_self (k : String) (f : StatRec → StatRec) :
    ∀ m : List (String × StatRec),
      getVal (upsertStat m k f) k = some (f ((getVal m k).getD StatRec.init)) := by
  intro m
  induction m with
  | nil => simp [upsertStat, getVal]
  | cons p rest ih =>
    obtain ⟨pk, pv⟩ := p
    by_cases hpk : pk = k
    · subst hpk
      simp [upsertStat, getVal]
    · simp [upsertStat, getVal, hpk, ih]

theorem getVal_upsertStat_ne (k q : String) (f : StatRec → StatRec) (hne : q ≠ k) :
    ∀ m : List (String × StatRec),
      getVal (upsertStat m k f) q = getVal m q := by
  intro m
  induction m with
  | nil => simp [upsertStat, getVal, Ne.symm hne]
  | cons p rest ih =>
    obtain ⟨pk, pv⟩ := p
    by_cases hpk : pk = k
    · subst hpk
      simp [upsertStat, getVal, Ne.symm hne]
    · simp [upsertStat, getVal, hpk, ih]

theorem getVal_bump_self (k : String) :
    ∀ m : List (String × Nat),
      getVal (bump m k) k = some ((getVal m k).getD 0 + 1) := by
  intro m
  induction m with
  | nil => simp [bump, getVal]
  | cons p rest ih =>
    obtain ⟨pk, pv⟩ := p
    by_cases hpk : pk = k
    · subst hpk
      simp [bump, getVal]
    · simp [bump, getVal, hpk, ih]

theorem getVal_bump_ne (k q : String) (hne : q ≠ k) :
    ∀ m : List (String × Nat), getVal (bump m k) q = getVal m q := by
  intro m
  induction m with
  | nil => simp [bump, getVal, Ne.symm hne]
  | cons p rest ih =>
    obtain ⟨pk, pv⟩ := p
    by_cases hpk : pk = k
    · subst hpk
      simp [bump, getVal, Ne.symm hne]
    · simp [bump, getVal, hpk, ih]

theorem getVal_requestStats_aux (l : String) :
    ∀ (rrs : List ReviewRequestData) (m : List (String × Nat)),
      (getVal (rrs.foldl (fun acc rr => bump acc rr.reviewerLogin) m) l).getD 0 =
        (getVal m l).getD 0 + countRequests l rrs := by
  intro rrs
  induction rrs with
  | nil => intro m; simp [countRequests]
  | cons rr rest ih =>
    intro m
    rw [List.foldl_cons, ih (bump m rr.reviewerLogin)]
    simp only [countRequests, List.countP_cons]
    by_cases hrl : rr.reviewerLogin = l
    · subst hrl
      rw [getVal_bump_self]
      simp only [Option.getD_some, decide_eq_true_eq]
      simp [countRequests]
      omega
    · rw [getVal_bump_ne _ _ (fun h => hrl h.symm)]
      simp [countRequests, hrl]

theorem getVal_requestStats (l : String) (rrs : List ReviewRequestData) :
    (getVal (requestStatsOf rrs) l).getD 0 = countRequests l rrs := by
  rw [requestStatsOf, getVal_requestStats_aux]
  simp [getVal]

theorem applyReview_completedTotal (cr : CompletedReviewData) (st : StatRec) :
    (applyReview cr st).completedTotal = st.completedTotal + 1 := by
  unfold applyReview
  cases cr.requestedAt <;> simp <;> split <;> rfl

theorem applyReview_completedRequested (cr : CompletedReviewData) (st : StatRec) :
    (applyReview cr st).completedRequested =
      st.completedRequested + (if cr.requestedAt.isSome then 1 else 0) := by
  unfold applyReview
  cases cr.requestedAt <;> simp <;> split <;> rfl

theorem applyReview_completedUnrequested (cr : CompletedReviewData) (st : StatRec) :
    (applyReview cr st).completedUnrequested =
      st.completedUnrequested + (if cr.requestedAt = none then 1 else 0) := by
  unfold applyReview
  cases cr.requestedAt <;> simp <;> split <;> rfl

theorem applyReview_reviewTimes (cr : CompletedReviewData) (st : StatRec) :
    (applyReview cr st).reviewTimes =
      st.reviewTimes ++ (match cr.requestedAt with
        | some req =>
          if (0 : ℚ) < ((cr.submittedAt : ℚ) - (req : ℚ)) / 3600000
          then [((cr.submittedAt : ℚ) - (req : ℚ)) / 3600000] else []
        | none => []) := by
  unfold applyReview
  cases cr.requestedAt <;> simp <;> split <;> simp

theorem statOf_statStep_self {l : String} (cr : CompletedReviewData)
    (m : List (String × StatRec)) (hcl : cr.reviewerLogin = l) :
    statOf (statStep m cr) l = applyReview cr (statOf m l) := by
  unfold statOf
  rw [statStep, hcl, getVal_upsertStat_self]
  rfl

theorem statOf_statStep_ne {l : String} (cr : CompletedReviewData)
    (m : List (String × StatRec)) (hcl : ¬ cr.reviewerLogin = l) :
    statOf (statStep m cr) l = statOf m l := by
  unfold statOf
  rw [statStep, getVal_upsertStat_ne _ _ _ (fun h => hcl h.symm)]

theorem statOf_foldl_completedTotal (l : String) :
    ∀ (crs : List CompletedReviewData) (m : List (String × StatRec)),
      (statOf (crs.foldl statStep m) l).completedTotal =
        (statOf m l).completedTotal + countCompleted l crs := by
  intro crs
  induction crs with
  | nil => intro m; simp [countCompleted]
  | cons cr rest ih =>
    intro m
    rw [List.foldl_cons, ih (statStep m cr)]
    simp only [countCompleted, List.countP_cons] at ih ⊢
    by_cases hcl : cr.reviewerLogin = l
    · rw [statOf_statStep_self cr m hcl, applyReview_completedTotal]
      simp [hcl]
      omega
    · rw [statOf_statStep_ne cr m hcl]
      simp [hcl]

theorem statOf_foldl_completedRequested (l : String) :
    ∀ (crs : List CompletedReviewData) (m : List (String × StatRec)),
      (statOf (crs.foldl statStep m) l).completedRequested =
        (statOf m l).completedRequested + countFulfilled l crs := by
  intro crs
  induction crs with
  | nil => intro m; simp [countFulfilled]
  | cons cr rest ih =>
    intro m
    rw [List.foldl_cons, ih (statStep m cr)]
    simp only [countFulfilled, List.countP_cons] at ih ⊢
    by_cases hcl : cr.reviewerLogin = l
    · rw [statOf_statStep_self cr m hcl, applyReview_completedRequested]
      cases hreq : cr.requestedAt <;> simp [hcl, hreq] <;> omega
    · rw [statOf_statStep_ne cr m hcl]
      simp [hcl]

theorem statOf_foldl_completedUnrequested (l : String) :
    ∀ (crs : List CompletedReviewData) (m : List (String × StatRec)),
      (statOf (crs.foldl statStep m) l).completedUnrequested =
        (statOf m l).completedUnrequested + countUnrequested l crs := by
  intro crs
  induction crs with
  | nil => intro m; simp [countUnrequested]
  | cons cr rest ih =>
    intro m
    rw [List.foldl_cons, ih (statStep m cr)]
    simp only [countUnrequested, List.countP_cons] at ih ⊢
    by_cases hcl : cr.reviewerLogin = l
    · rw [statOf_statStep_self cr m hcl, applyReview_completedUnrequested]
      cases hreq : cr.requestedAt <;> simp [hcl, hreq] <;> omega
    · rw [statOf_statStep_ne cr m hcl]
      simp [hcl]

theorem statOf_foldl_reviewTimes (l : String) :
    ∀ (crs : List CompletedReviewData) (m : List (String × StatRec)),
      (statOf (crs.foldl statStep m) l).reviewTimes =
        (statOf m l).reviewTimes ++ reviewTimesFor l crs := by
  intro crs
  induction crs with
  | nil => intro m; simp [reviewTimesFor]
  | cons cr rest ih =>
    intro m
    rw [List.foldl_cons, ih (statStep m cr)]
    by_cases hcl : cr.reviewerLogin = l
    · rw [statOf_statStep_self cr m hcl, applyReview_reviewTimes, List.append_assoc]
      congr 1
      cases hreq : cr.requestedAt with
      | some req =>
        by_cases hpos : (0 : ℚ) < ((cr.submittedAt : ℚ) - (req : ℚ)) / 3600000
        · simp only [reviewTimesFor, List.filterMap_cons, hreq, hcl, eq_self_iff_true,
            if_true, hpos, List.cons_append, List.nil_append]
        · simp only [reviewTimesFor, List.filterMap_cons, hreq, hcl, eq_self_iff_true,
            if_true, hpos, if_false, List.nil_append]
      | none => simp [reviewTimesFor, List.filterMap_cons, hreq]
    · rw [statOf_statStep_ne cr m hcl]
      cases hreq : cr.requestedAt with
      | some req => simp [reviewTimesFor, List.filterMap_cons, hreq, hcl]
      | none => simp [reviewTimesFor, List.filterMap_cons, hreq]

theorem countCompleted_split (l : String) (crs : List CompletedReviewData) :
    countCompleted l crs = countFulfilled l crs + countUnrequested l crs := by
  induction crs with
  | nil => simp [countCompleted, countFulfilled, countUnrequested]
  | cons cr rest ih =>
    simp only [countCompleted, countFulfilled, countUnrequested, List.countP_cons] at ih ⊢
    have h1 : (if (decide (cr.reviewerLogin = l)) = true then 1 else 0) =
        (if decide (cr.reviewerLogin = l ∧ cr.requestedAt.isSome) = true then 1 else 0) +
        (if decide (cr.reviewerLogin = l ∧ cr.requestedAt = none) = true then 1 else 0) := by
      by_cases hcl : cr.reviewerLogin = l
      · cases hreq : cr.requestedAt <;> simp [hcl, hreq]
      · simp [hcl]
    omega

theorem processPR_le (since : Nat) (pr : PRNode) (l : String) :
    countFulfilled l (processPR since pr).1 ≤ countRequests l (processPR since pr).2 := by
  rcases Nat.eq_zero_or_pos (countFulfilled l (processPR since pr).1) with h0 | hpos
  · simp [h0]
  · rw [countFulfilled] at hpos
    obtain ⟨cr, hcr, hp⟩ := List.countP_pos_iff.mp hpos
    simp only [decide_eq_true_eq] at hp
    obtain ⟨hlg, hsome⟩ := hp
    obtain ⟨t, ht⟩ := Option.isSome_iff_exists.mp hsome
    obtain ⟨rr, hrr, hprop⟩ := processPR_fulfillSound since pr cr hcr t ht
    have hcnt : 0 < countRequests l (processPR since pr).2 := by
      rw [countRequests]
      exact List.countP_pos_iff.mpr ⟨rr, hrr, by simp [hprop.1, hlg]⟩
    have hle1 : countFulfilled l (processPR since pr).1 ≤ 1 :=
      processPR_countFulfilled since pr l
    omega

theorem processNodes_le (since : Nat) (l : String) :
    ∀ nodes : List PRNode,
      countFulfilled l (processNodes since nodes).1.1 ≤
        countRequests l (processNodes since nodes).1.2 := by
  intro nodes
  induction nodes with
  | nil => simp [processNodes, countFulfilled, countRequests]
  | cons pr rest ih =>
    rw [processNodes]
    cases hm : pr.mergedAt with
    | some mm =>
      by_cases hlt : mm < since
      · simp [hlt, countFulfilled, countRequests]
      · simp only [hlt, if_false]
        rw [show countFulfilled l ((processPR since pr).1 ++ (processNodes since rest).1.1)
            = countFulfilled l (processPR since pr).1 +
              countFulfilled l (processNodes since rest).1.1 from List.countP_append _ _ _,
          show countRequests l ((processPR since pr).2 ++ (processNodes since rest).1.2)
            = countRequests l (processPR since pr).2 +
              countRequests l (processNodes since rest).1.2 from List.countP_append _ _ _]
        have := processPR_le since pr l
        omega
    | none =>
      rw [show countFulfilled l ((processPR since pr).1 ++ (processNodes since rest).1.1)
          = countFulfilled l (processPR since pr).1 +
            countFulfilled l (processNodes since rest).1.1 from List.countP_append _ _ _,
        show countRequests l ((processPR since pr).2 ++ (processNodes since rest).1.2)
          = countRequests l (processPR since pr).2 +
            countRequests l (processNodes since rest).1.2 from List.countP_append _ _ _]
      have := processPR_le since pr l
      omega

theorem fetchLoop_le (since : Nat) (l : String) :
    ∀ (pages : List Page) (fuel : Nat),
      countFulfilled l (fetchLoop since pages fuel).1 ≤
        countRequests l (fetchLoop since pages fuel).2 := by
  intro pages
  induction pages with
  | nil => intro fuel; cases fuel <;> simp [fetchLoop, countFulfilled, countRequests]
  | cons p rest ih =>
    intro fuel
    cases fuel with
    | zero => simp [fetchLoop, countFulfilled, countRequests]
    | succ f =>
      simp only [fetchLoop]
      split
      · rw [show countFulfilled l
              ((processNodes since p.nodes).1.1 ++ (fetchLoop since rest f).1)
            = countFulfilled l (processNodes since p.nodes).1.1 +
              countFulfilled l (fetchLoop since rest f).1 from List.countP_append _ _ _,
          show countRequests l
              ((processNodes since p.nodes).1.2 ++ (fetchLoop since rest f).2)
            = countRequests l (processNodes since p.nodes).1.2 +
              countRequests l (fetchLoop since rest f).2 from List.countP_append _ _ _]
        have h1 := processNodes_le since l p.nodes
        have h2 := ih f
        omega
      · exact processNodes_le since l p.nodes

theorem mem_insertByCompletedDesc (x r : Reviewer) :
    ∀ lres : List Reviewer, x ∈ insertByCompletedDesc r lres ↔ x = r ∨ x ∈ lres := by
  intro lres
  induction lres with
  | nil => simp [insertByCompletedDesc]
  | cons y ys ih =>
    rw [insertByCompletedDesc]
    split
    · simp [List.mem_cons]
    · simp only [List.mem_cons, ih]
      tauto

theorem mem_sortByCompletedDesc (x : Reviewer) :
    ∀ lres : List Reviewer, x ∈ sortByCompletedDesc lres ↔ x ∈ lres := by
  intro lres
  induction lres with
  | nil => simp [sortByCompletedDesc]
  | cons y ys ih =>
    rw [sortByCompletedDesc, mem_insertByCompletedDesc]
    simp [ih]

theorem computeReviewerStats_shape (allPrs : List PRData) (rsd : ReviewStatsData)
    (empSet : List String) (r : Reviewer) :
    r ∈ computeReviewerStats allPrs rsd empSet ↔
      ∃ lg ∈ (dedupFirst (keysOf (pendingCountsOf allPrs) ++
            keysOf (reviewerStatsOf rsd.completedReviews) ++
            keysOf (requestStatsOf rsd.reviewRequests))).filter
          (fun lg => isEmployee lg empSet ||
            lg ∈ maintainersSetOf allPrs rsd.completedReviews),
        buildReviewer (reviewerStatsOf rsd.completedReviews)
          (requestStatsOf rsd.reviewRequests) (pendingCountsOf allPrs) lg = r := by
  rw [computeReviewerStats, mem_sortByCompletedDesc, List.mem_map]

theorem buildReviewer_fields (st : List (String × StatRec))
    (rq pd : List (String × Nat)) (lg : String) :
    (buildReviewer st rq pd lg).name = lg ∧
    (buildReviewer st rq pd lg).completedTotal = (statOf st lg).completedTotal ∧
    (buildReviewer st rq pd lg).completedRequested = (statOf st lg).completedRequested ∧
    (buildReviewer st rq pd lg).completedUnrequested =
      (statOf st lg).completedUnrequested ∧
    (buildReviewer st rq pd lg).requestedTotal = (getVal rq lg).getD 0 ∧
    (buildReviewer st rq pd lg).medianReviewTimeHours =
      medianQ (statOf st lg).reviewTimes := by
  refine ⟨rfl, rfl, rfl, rfl, rfl, rfl⟩

/-- C6 — Reviewer-stat arithmetic invariant: for stats computed by
`computeReviewerStats` over the records returned by
`getRecentlyMergedPRsWithReviews`, `completedRequested ≤ requestedTotal`
and `completedTotal = completedRequested + completedUnrequested`. -/
theorem reviewer_stat_arithmetic (allPrs : List PRData) (daysBack : ℚ)
    (since : Nat) (pages : List Page) (out : ReviewStatsData)
    (empSet : List String) (r : Reviewer)
    (hok : getRecentlyMergedPRsWithReviews daysBack since pages = .ok out)
    (hr : r ∈ computeReviewerStats allPrs out empSet) :
    r.completedRequested ≤ r.requestedTotal ∧
    r.completedTotal = r.completedRequested + r.completedUnrequested := by
  obtain ⟨lg, hlg, heq⟩ := (computeReviewerStats_shape allPrs out empSet r).mp hr
  subst heq
  obtain ⟨-, hct, hcr2, hcu, hrq, -⟩ := buildReviewer_fields
    (reviewerStatsOf out.completedReviews) (requestStatsOf out.reviewRequests)
    (pendingCountsOf allPrs) lg
  rw [hct, hcr2, hcu, hrq]
  rw [reviewerStatsOf, statOf_foldl_completedTotal, statOf_foldl_completedRequested,
    statOf_foldl_completedUnrequested, getVal_requestStats]
  simp only [statOf, getVal, Option.getD_none]
  constructor
  · -- completedRequested ≤ requestedTotal via the pipeline
    unfold getRecentlyMergedPRsWithReviews at hok
    split at hok
    · exact absurd hok (by simp)
    · injection hok with hok
      subst hok
      simpa [StatRec.init] using fetchLoop_le since lg pages maxPages
  · simpa [StatRec.init] using countCompleted_split lg out.completedReviews

/-- Witness for C6 at a concrete input: employee `e` requested at time 0
completes a review at time 3600000 (one hour later). -/
theorem reviewer_stat_arithmetic_witness :
    ((⟨"e", 0, 1, 1, 0, 1, some 100, some 1⟩ : Reviewer) ∈
      computeReviewerStats []
        ⟨[⟨"e", "NONE", 3600000, some 0, 1, "u"⟩], [⟨"e", 0, 1⟩]⟩ ["e"]) ∧
    ((1 : Nat) ≤ 1 ∧ (1 : Nat) = 1 + 0) := by
  have heval : computeReviewerStats []
      ⟨[⟨"e", "NONE", 3600000, some 0, 1, "u"⟩], [⟨"e", 0, 1⟩]⟩ ["e"] =
      [⟨"e", 0, 1, 1, 0, 1, some 100, some 1⟩] := by
    norm_num [computeReviewerStats, reviewerStatsOf, requestStatsOf, pendingCountsOf,
      maintainersSetOf, dedupFirst, keysOf, setAdd, statStep, upsertStat, applyReview,
      StatRec.init, bump, isEmployee, hasWriteAccessAssoc, buildReviewer, getVal,
      sortByCompletedDesc, insertByCompletedDesc, medianQ, sortAsc, insertAsc]
  have hmem : (⟨"e", 0, 1, 1, 0, 1, some 100, some 1⟩ : Reviewer) ∈
      computeReviewerStats []
        ⟨[⟨"e", "NONE", 3600000, some 0, 1, "u"⟩], [⟨"e", 0, 1⟩]⟩ ["e"] := by
    rw [heval]
    exact List.mem_singleton.mpr rfl
  exact ⟨hmem,
    reviewer_stat_arithmetic [] 30 0
      [⟨[⟨1, "u", some 1,
          [.reviewRequested (some "e") 0,
           .pullRequestReview (some "e") (some "NONE") (some 3600000) "APPROVED"]⟩],
        false⟩]
      ⟨[⟨"e", "NONE", 3600000, some 0, 1, "u"⟩], [⟨"e", 0, 1⟩]⟩ ["e"]
      ⟨"e", 0, 1, 1, 0, 1, some 100, some 1⟩ (by rfl) hmem⟩

/-- C8 — Median definition: every reviewer's `medianReviewTimeHours` is
the source median of the strictly positive durations, in hours, of that
reviewer's fulfilled completed reviews (null when no samples exist), where
the median of an even-length sorted sample is the mean of the two central
values; in particular the median of [12, 24, 48] is 24 and of [24, 48]
is 36. -/
theorem median_definition (allPrs : List PRData) (rsd : ReviewStatsData)
    (empSet : List String) (r : Reviewer)
    (hr : r ∈ computeReviewerStats allPrs rsd empSet) :
    r.medianReviewTimeHours = medianQ (reviewTimesFor r.name rsd.completedReviews) ∧
    (reviewTimesFor r.name rsd.completedReviews = [] →
      r.medianReviewTimeHours = none) ∧
    medianQ [12, 24, 48] = some 24 ∧ medianQ [24, 48] = some 36 := by
  obtain ⟨lg, hlg, heq⟩ := (computeReviewerStats_shape allPrs rsd empSet r).mp hr
  subst heq
  have hmed : (buildReviewer (reviewerStatsOf rsd.completedReviews)
      (requestStatsOf rsd.reviewRequests) (pendingCountsOf allPrs) lg).medianReviewTimeHours
      = medianQ (statOf (reviewerStatsOf rsd.completedReviews) lg).reviewTimes := rfl
  have hname : (buildReviewer (reviewerStatsOf rsd.completedReviews)
      (requestStatsOf rsd.reviewRequests) (pendingCountsOf allPrs) lg).name = lg := rfl
  rw [hmed, hname, reviewerStatsOf, statOf_foldl_reviewTimes]
  have hinit : (statOf ([] : List (String × StatRec)) lg).reviewTimes = [] := rfl
  rw [hinit, List.nil_append]
  refine ⟨rfl, ?_, ?_, ?_⟩
  · intro h
    rw [h]
    simp [medianQ]
  · norm_num [medianQ, sortAsc, insertAsc]
  · norm_num [medianQ, sortAsc, insertAsc]

/-- Witness for C8: reviewer `e` fulfills three requests with durations of
12, 24 and 48 hours; the reported median is 24 hours. -/
theorem median_definition_witness :
    ((⟨"e", 0, 3, 3, 0, 3, some 100, some 24⟩ : Reviewer) ∈
      computeReviewerStats []
        ⟨[⟨"e", "NONE", 43200000, some 0, 1, "u"⟩,
          ⟨"e", "NONE", 86400000, some 0, 2, "v"⟩,
          ⟨"e", "NONE", 172800000, some 0, 3, "w"⟩],
         [⟨"e", 0, 1⟩, ⟨"e", 0, 2⟩, ⟨"e", 0, 3⟩]⟩ ["e"]) ∧
    ((⟨"e", 0, 3, 3, 0, 3, some 100, some 24⟩ : Reviewer).medianReviewTimeHours =
      medianQ (reviewTimesFor "e"
        [⟨"e", "NONE", 43200000, some 0, 1, "u"⟩,
         ⟨"e", "NONE", 86400000, some 0, 2, "v"⟩,
         ⟨"e", "NONE", 172800000, some 0, 3, "w"⟩]) ∧
     (reviewTimesFor "e"
        [⟨"e", "NONE", 43200000, some 0, 1, "u"⟩,
         ⟨"e", "NONE", 86400000, some 0, 2, "v"⟩,
         ⟨"e", "NONE", 172800000, some 0, 3, "w"⟩] = [] →
       (⟨"e", 0, 3, 3, 0, 3, some 100, some 24⟩ : Reviewer).medianReviewTimeHours = none) ∧
     medianQ [12, 24, 48] = some 24 ∧ medianQ [24, 48] = some 36) := by
  have heval : computeReviewerStats []
      ⟨[⟨"e", "NONE", 43200000, some 0, 1, "u"⟩,
        ⟨"e", "NONE", 86400000, some 0, 2, "v"⟩,
        ⟨"e", "NONE", 172800000, some 0, 3, "w"⟩],
       [⟨"e", 0, 1⟩, ⟨"e", 0, 2⟩, ⟨"e", 0, 3⟩]⟩ ["e"] =
      [⟨"e", 0, 3, 3, 0, 3, some 100, some 24⟩] := by
    norm_num [computeReviewerStats, reviewerStatsOf, requestStatsOf, pendingCountsOf,
      maintainersSetOf, dedupFirst, keysOf, setAdd, statStep, upsertStat, applyReview,
      StatRec.init, bump, isEmployee, hasWriteAccessAssoc, buildReviewer, getVal,
      sortByCompletedDesc, insertByCompletedDesc, medianQ, sortAsc, insertAsc]
  have hmem : (⟨"e", 0, 3, 3, 0, 3, some 100, some 24⟩ : Reviewer) ∈
      computeReviewerStats []
        ⟨[⟨"e", "NONE", 43200000, some 0, 1, "u"⟩,
          ⟨"e", "NONE", 86400000, some 0, 2, "v"⟩,
          ⟨"e", "NONE", 172800000, some 0, 3, "w"⟩],
         [⟨"e", 0, 1⟩, ⟨"e", 0, 2⟩, ⟨"e", 0, 3⟩]⟩ ["e"] := by
    rw [heval]
    exact List.mem_singleton.mpr rfl
  exact ⟨hmem, median_definition _ _ _ _ hmem⟩

/-! ### Membership lemmas for the inclusion filter -/

theorem mem_setAdd (x y : String) (s : List String) :
    x ∈ setAdd s y ↔ x ∈ s ∨ x = y := by
  unfold setAdd
  split
  · next hy =>
    constructor
    · exact Or.inl
    · rintro (h | rfl)
      · exact h
      · exact hy
  · simp

theorem mem_foldl_setAdd (x : String) :
    ∀ (xs s : List String), x ∈ xs.foldl setAdd s ↔ x ∈ s ∨ x ∈ xs := by
  intro xs
  induction xs with
  | nil => intro s; simp
  | cons y ys ih =>
    intro s
    rw [List.foldl_cons, ih (setAdd s y), mem_setAdd]
    simp [List.mem_cons]
    tauto

theorem mem_dedupFirst (x : String) (xs : List String) :
    x ∈ dedupFirst xs ↔ x ∈ xs := by
  rw [dedupFirst, mem_foldl_setAdd]
  simp

theorem mem_keysOf_bump (x k : String) :
    ∀ m : List (String × Nat), x ∈ keysOf (bump m k) ↔ x ∈ keysOf m ∨ x = k := by
  intro m
  induction m with
  | nil => simp [bump, keysOf]
  | cons p rest ih =>
    obtain ⟨pk, pv⟩ := p
    by_cases hpk : pk = k
    · subst hpk
      simp [bump, keysOf, List.mem_cons]
      tauto
    · simp only [bump, hpk, if_false, keysOf, List.map_cons, List.mem_cons]
      rw [show x ∈ List.map Prod.fst (bump rest k) ↔ x ∈ keysOf (bump rest k) from Iff.rfl]
      rw [ih]
      simp [keysOf]
      tauto

theorem mem_keysOf_foldl_bump (x : String) :
    ∀ (xs : List String) (m : List (String × Nat)),
      x ∈ keysOf (xs.foldl bump m) ↔ x ∈ keysOf m ∨ x ∈ xs := by
  intro xs
  induction xs with
  | nil => intro m; simp
  | cons y ys ih =>
    intro m
    rw [List.foldl_cons, ih (bump m y), mem_keysOf_bump]
    simp [List.mem_cons]
    tauto

theorem mem_keysOf_pendingCounts (x : String) :
    ∀ (prs : List PRData) (m : List (String × Nat)),
      x ∈ keysOf (prs.foldl (fun acc pr => pr.requestedUsers.foldl bump acc) m) ↔
        x ∈ keysOf m ∨ ∃ pr ∈ prs, x ∈ pr.requestedUsers := by
  intro prs
  induction prs with
  | nil => intro m; simp
  | cons pr rest ih =>
    intro m
    rw [List.foldl_cons, ih, mem_keysOf_foldl_bump]
    simp [List.mem_cons]
    tauto

theorem mem_keysOf_requestStats (x : String) :
    ∀ (rrs : List ReviewRequestData) (m : List (String × Nat)),
      x ∈ keysOf (rrs.foldl (fun acc rr => bump acc rr.reviewerLogin) m) ↔
        x ∈ keysOf m ∨ ∃ rr ∈ rrs, rr.reviewerLogin = x := by
  intro rrs
  induction rrs with
  | nil => intro m; simp
  | cons rr rest ih =>
    intro m
    rw [List.foldl_cons, ih, mem_keysOf_bump]
    simp [List.mem_cons]
    tauto

theorem mem_keysOf_upsertStat (x k : String) (f : StatRec → StatRec) :
    ∀ m : List (String × StatRec),
      x ∈ keysOf (upsertStat m k f) ↔ x ∈ keysOf m ∨ x = k := by
  intro m
  induction m with
  | nil => simp [upsertStat, keysOf]
  | cons p rest ih =>
    obtain ⟨pk, pv⟩ := p
    by_cases hpk : pk = k
    · subst hpk
      simp [upsertStat, keysOf, List.mem_cons]
      tauto
    · simp only [upsertStat, hpk, if_false, keysOf, List.map_cons, List.mem_cons]
      rw [show x ∈ List.map Prod.fst (upsertStat rest k f) ↔
        x ∈ keysOf (upsertStat rest k f) from Iff.rfl]
      rw [ih]
      simp [keysOf]
      tauto

theorem mem_keysOf_reviewerStats (x : String) :
    ∀ (crs : List CompletedReviewData) (m : List (String × StatRec)),
      x ∈ keysOf (crs.foldl statStep m) ↔
        x ∈ keysOf m ∨ ∃ cr ∈ crs, cr.reviewerLogin = x := by
  intro crs
  induction crs with
  | nil => intro m; simp
  | cons cr rest ih =>
    intro m
    rw [List.foldl_cons, ih, statStep, mem_keysOf_upsertStat]
    simp [List.mem_cons]
    tauto

theorem mem_maintainersSetOf (x : String) (allPrs : List PRData)
    (crs : List CompletedReviewData) :
    x ∈ maintainersSetOf allPrs crs ↔
      (∃ pr ∈ allPrs, pr.authorType = "maintainer" ∧ pr.authorLogin = x) ∨
      (∃ cr ∈ crs, hasWriteAccessAssoc cr.authorAssociation ∧ cr.reviewerLogin = x) := by
  have haux2 : ∀ (crs2 : List CompletedReviewData) (s : List String),
      x ∈ crs2.foldl (fun acc cr =>
          if hasWriteAccessAssoc cr.authorAssociation
          then setAdd acc cr.reviewerLogin else acc) s ↔
        x ∈ s ∨ ∃ cr ∈ crs2, hasWriteAccessAssoc cr.authorAssociation ∧
          cr.reviewerLogin = x := by
    intro crs2
    induction crs2 with
    | nil => intro s; simp
    | cons cr rest ih =>
      intro s
      rw [List.foldl_cons, ih]
      by_cases hw : hasWriteAccessAssoc cr.authorAssociation
      · rw [if_pos hw, mem_setAdd]
        simp [List.mem_cons, hw]
        tauto
      · rw [if_neg hw]
        simp [List.mem_cons, hw]
  have haux1 : ∀ (prs : List PRData) (s : List String),
      x ∈ prs.foldl (fun acc pr =>
          if pr.authorType = "maintainer" then setAdd acc pr.authorLogin else acc) s ↔
        x ∈ s ∨ ∃ pr ∈ prs, pr.authorType = "maintainer" ∧ pr.authorLogin = x := by
    intro prs
    induction prs with
    | nil => intro s; simp
    | cons pr rest ih =>
      intro s
      rw [List.foldl_cons, ih]
      by_cases hw : pr.authorType = "maintainer"
      · rw [if_pos hw, mem_setAdd]
        simp [List.mem_cons, hw]
        tauto
      · rw [if_neg hw]
        simp [List.mem_cons, hw]
  rw [maintainersSetOf, haux2, haux1]
  simp

/-- Counterexample for C3: `alice` is neither an employee nor a
maintainer but has one completed review; she does not appear in the
output of `computeReviewerStats`. -/
theorem inclusion_filter_cex :
    ¬ ("alice" ∈ (computeReviewerStats []
        ⟨[⟨"alice", "NONE", 3600000, none, 1, "u"⟩], []⟩ []).map Reviewer.name) := by
  rw [show computeReviewerStats []
      ⟨[⟨"alice", "NONE", 3600000, none, 1, "u"⟩], []⟩ [] = [] from by rfl]
  simp

/-- C3 amended — Inclusion filter: a reviewer appears in the output of
`computeReviewerStats` iff they have some activity (a pending request on
an open pull request, a completed review, or a review-request record) AND
they are classified — an employee, a maintainer-classified author of an
open pull request, or a reviewer with a write-access association on some
completed review. Active but unclassified reviewers are dropped. -/
theorem inclusion_filter_amended (allPrs : List PRData) (rsd : ReviewStatsData)
    (empSet : List String) (lg : String) :
    (lg ∈ (computeReviewerStats allPrs rsd empSet).map Reviewer.name) ↔
      (((∃ pr ∈ allPrs, lg ∈ pr.requestedUsers) ∨
        (∃ cr ∈ rsd.completedReviews, cr.reviewerLogin = lg) ∨
        (∃ rr ∈ rsd.reviewRequests, rr.reviewerLogin = lg)) ∧
       (lg ∈ empSet ∨
        (∃ pr ∈ allPrs, pr.authorType = "maintainer" ∧ pr.authorLogin = lg) ∨
        (∃ cr ∈ rsd.completedReviews,
          hasWriteAccessAssoc cr.authorAssociation ∧ cr.reviewerLogin = lg))) := by
  rw [List.mem_map]
  have hact : ∀ l2 : String,
      l2 ∈ dedupFirst (keysOf (pendingCountsOf allPrs) ++
        keysOf (reviewerStatsOf rsd.completedReviews) ++
        keysOf (requestStatsOf rsd.reviewRequests)) ↔
      ((∃ pr ∈ allPrs, l2 ∈ pr.requestedUsers) ∨
        (∃ cr ∈ rsd.completedReviews, cr.reviewerLogin = l2) ∨
        (∃ rr ∈ rsd.reviewRequests, rr.reviewerLogin = l2)) := by
    intro l2
    rw [mem_dedupFirst]
    simp only [List.mem_append]
    rw [show l2 ∈ keysOf (pendingCountsOf allPrs) ↔
          (∃ pr ∈ allPrs, l2 ∈ pr.requestedUsers) from by
        rw [pendingCountsOf, mem_keysOf_pendingCounts]; simp [keysOf],
      show l2 ∈ keysOf (reviewerStatsOf rsd.completedReviews) ↔
          (∃ cr ∈ rsd.completedReviews, cr.reviewerLogin = l2) from by
        rw [reviewerStatsOf, mem_keysOf_reviewerStats]; simp [keysOf],
      show l2 ∈ keysOf (requestStatsOf rsd.reviewRequests) ↔
          (∃ rr ∈ rsd.reviewRequests, rr.reviewerLogin = l2) from by
        rw [requestStatsOf, mem_keysOf_requestStats]; simp [keysOf]]
    exact or_assoc
  have hpred : ∀ l2 : String,
      ((isEmployee l2 empSet || l2 ∈ maintainersSetOf allPrs rsd.completedReviews)
        = true) ↔
      (l2 ∈ empSet ∨
        (∃ pr ∈ allPrs, pr.authorType = "maintainer" ∧ pr.authorLogin = l2) ∨
        (∃ cr ∈ rsd.completedReviews,
          hasWriteAccessAssoc cr.authorAssociation ∧ cr.reviewerLogin = l2)) := by
    intro l2
    rw [Bool.or_eq_true]
    rw [show (isEmployee l2 empSet = true) ↔ l2 ∈ empSet from by
      simp [isEmployee]]
    rw [show ((decide (l2 ∈ maintainersSetOf allPrs rsd.completedReviews)) = true) ↔
        (∃ pr ∈ allPrs, pr.authorType = "maintainer" ∧ pr.authorLogin = l2) ∨
        (∃ cr ∈ rsd.completedReviews,
          hasWriteAccessAssoc cr.authorAssociation ∧ cr.reviewerLogin = l2) from by
      rw [decide_eq_true_eq, mem_maintainersSetOf]]
  constructor
  · rintro ⟨r, hr, hname⟩
    obtain ⟨lg2, hlg2, heq⟩ := (computeReviewerStats_shape allPrs rsd empSet r).mp hr
    have hn2 : lg2 = lg := by
      rw [← hname, ← heq]
      rfl
    subst hn2
    rw [List.mem_filter] at hlg2
    obtain ⟨hmem, hp⟩ := hlg2
    exact ⟨(hact lg2).mp hmem, (hpred lg2).mp hp⟩
  · rintro ⟨ha, hc⟩
    refine ⟨buildReviewer (reviewerStatsOf rsd.completedReviews)
      (requestStatsOf rsd.reviewRequests) (pendingCountsOf allPrs) lg, ?_, rfl⟩
    rw [computeReviewerStats_shape]
    refine ⟨lg, ?_, rfl⟩
    rw [List.mem_filter]
    exact ⟨(hact lg).mpr ha, (hpred lg).mpr hc⟩

/-- Counterexample for C9: `daysBack = 1/2` is not a positive integer,
yet neither function raises an error — the guard only rejects
`daysBack ≤ 0`. -/
theorem lookback_validation_cex :
    (¬ ∃ k : ℕ, 0 < k ∧ ((1 : ℚ) / 2 = (k : ℚ))) ∧
    getRecentlyMergedPRsWithReviews ((1 : ℚ) / 2) 50 [] = .ok ⟨[], []⟩ ∧
    getCommunityPRReviewStats ((1 : ℚ) / 2) 50 [] [] = .ok [] := by
  refine ⟨?_, ?_, ?_⟩
  · rintro ⟨k, hk, hke⟩
    have hlt : ((k : ℚ)) < 1 := by rw [← hke]; norm_num
    have : k < 1 := by exact_mod_cast hlt
    omega
  · norm_num [getRecentlyMergedPRsWithReviews, fetchLoop, maxPages]
  · norm_num [getCommunityPRReviewStats, communityLoop, maxPages]

/-- C9 amended — Lookback-window validation: both
`getRecentlyMergedPRsWithReviews` and `getCommunityPRReviewStats` fail
with the `InvalidParameter` error exactly when `daysBack ≤ 0`, and the
error is raised independently of the page stream (no request is
consumed); every `daysBack > 0`, integer or not, is accepted. -/
theorem lookback_validation_amended (d : ℚ) (since : Nat) (pages : List Page)
    (cpages : List CommunityPage) (emps : List String) :
    ((∃ e, getRecentlyMergedPRsWithReviews d since pages = .error e) ↔ d ≤ 0) ∧
    ((∃ e, getCommunityPRReviewStats d since cpages emps = .error e) ↔ d ≤ 0) ∧
    (d ≤ 0 → getRecentlyMergedPRsWithReviews d since pages =
      .error "daysBack must be a positive number" ∧
      getCommunityPRReviewStats d since cpages emps =
      .error "daysBack must be a positive number") := by
  unfold getRecentlyMergedPRsWithReviews getCommunityPRReviewStats
  by_cases hd : d ≤ 0
  · simp [hd]
  · simp [hd]

/-- C10 — Open-state filtering: every pull request returned by
`getOpenPRsGraphQL` has state `OPEN`; nodes of any fetched page with any
other state are excluded. -/
theorem open_state_filtering (pages : List OpenPage) (maxPrPagesPerRepo : Nat)
    (pr : OpenPRNode) (hpr : pr ∈ getOpenPRsGraphQL pages maxPrPagesPerRepo) :
    pr.state = "OPEN" := by
  rw [getOpenPRsGraphQL] at hpr
  induction pages generalizing maxPrPagesPerRepo with
  | nil => cases maxPrPagesPerRepo <;> simp [openLoop] at hpr
  | cons p rest ih =>
    cases maxPrPagesPerRepo with
    | zero => simp [openLoop] at hpr
    | succ f =>
      simp only [openLoop] at hpr
      split at hpr
      · rcases List.mem_append.mp hpr with h | h
        · exact of_decide_eq_true (List.mem_filter.mp h).2
        · exact ih f h
      · exact of_decide_eq_true (List.mem_filter.mp hpr).2

/-- Witness for C10: with one page holding an open and a closed pull
request, the member of the result has state `OPEN`. -/
theorem open_state_filtering_witness :
    (⟨1, "t", "u", "OPEN", false, some "a"⟩ : OpenPRNode) ∈
      getOpenPRsGraphQL [⟨[⟨1, "t", "u", "OPEN", false, some "a"⟩,
        ⟨2, "t", "u", "CLOSED", false, some "a"⟩], false⟩] 10 ∧
    (⟨1, "t", "u", "OPEN", false, some "a"⟩ : OpenPRNode).state = "OPEN" :=
  ⟨by decide,
    open_state_filtering [⟨[⟨1, "t", "u", "OPEN", false, some "a"⟩,
        ⟨2, "t", "u", "CLOSED", false, some "a"⟩], false⟩] 10
      ⟨1, "t", "u", "OPEN", false, some "a"⟩ (by decide)⟩
